import Mathlib

/-!
Verification of the `typologist` library (`src/typeAt.ts`): a TypeScript
type-level resolver `TypeAt<T, K>` and enumerator `Paths<T, Depth>` for
string-encoded access paths into structural schemas.

Shallow embedding conventions:

* A TypeScript type is embedded as a `Ty` tree.  Unions are binary
  (`Ty.union`), and `Ty.tNever` is TypeScript's `never` (the empty union,
  and also the "Unresolvable" sentinel of the resolver).  The `variants`
  function flattens a union into its member list, mirroring TypeScript's
  flat union normal form; `mkUnion` re-builds a canonical (flattened,
  `never`-free, deduplicated) union, mirroring how TypeScript normalises
  union types.
* Terminal (leaf) types are opaque: string/number/boolean are
  distinguishable leaves; their own members (e.g. `string`'s `length`)
  are outside of the modelled path language, exactly as the spec's
  "Terminal" nodes are leaves the traversal never descends into.
* An object type stores its fields as `(name, optional?, declared type)`.
  For an optional field `k?: X` the stored type is the declared `X`; the
  indexed access `T[K]` adds `undefined` for optional fields, as in
  TypeScript with `strictNullChecks`.
* Path strings are `List Char` (a TypeScript string is its character
  sequence); `resolve` wraps this for `String` literals.
* Template-literal matching: `${infer I}.${infer Rest}` splits at the
  first `.`; `${infer Base}[${number}]${infer Rest}` splits at the first
  `[` and the first `]` after it, and the middle part must be the
  canonical decimal form of a number (we model the non-negative integers,
  the only indices the grammar and the claims use).
* Recursive functions are defined with an explicit fuel argument so that
  every definition is executable by kernel reduction; the fuel is
  discharged once and for all by congruence lemmas (`typeAt_eq`,
  `pathsO_eq`) proved below, so all reasoning happens on the intended
  fixpoint equations.
-/

mutual
/-- Embedded TypeScript types (the schema model).  `tNever` is `never`.
Source: the types that `src/typeAt.ts` manipulates (primitives, object
literal types, string index signatures, arrays, unions, plus `null` and
`undefined`). -/
inductive Ty where
  | tStr : Ty
  | tNum : Ty
  | tBool : Ty
  | tNull : Ty
  | tUndefined : Ty
  | tNever : Ty
  | obj (fs : Flds) : Ty
  | dict (val : Ty) : Ty
  | arr (elem : Ty) : Ty
  | union (a b : Ty) : Ty

/-- The field list of an object type: each field has a name, an
optionality flag (`k?:`) and its declared type. -/
inductive Flds where
  | nil : Flds
  | cons (name : List Char) (opt : Bool) (ty : Ty) (rest : Flds) : Flds
end

namespace Typologist

open Ty

mutual
/-- Structural equality test for embedded types. -/
def tyBeq : Ty → Ty → Bool
  | .tStr, .tStr => true
  | .tNum, .tNum => true
  | .tBool, .tBool => true
  | .tNull, .tNull => true
  | .tUndefined, .tUndefined => true
  | .tNever, .tNever => true
  | .obj fs, .obj gs => fldsBeq fs gs
  | .dict a, .dict b => tyBeq a b
  | .arr a, .arr b => tyBeq a b
  | .union a b, .union c d => tyBeq a c && tyBeq b d
  | _, _ => false

/-- Structural equality test for field lists. -/
def fldsBeq : Flds → Flds → Bool
  | .nil, .nil => true
  | .cons n o t r, .cons n' o' t' r' =>
    n = n' && o = o' && tyBeq t t' && fldsBeq r r'
  | _, _ => false
end

mutual
def tyBeq_iff : ∀ a b : Ty, tyBeq a b = true ↔ a = b
  | .tStr, b => by cases b <;> simp [tyBeq]
  | .tNum, b => by cases b <;> simp [tyBeq]
  | .tBool, b => by cases b <;> simp [tyBeq]
  | .tNull, b => by cases b <;> simp [tyBeq]
  | .tUndefined, b => by cases b <;> simp [tyBeq]
  | .tNever, b => by cases b <;> simp [tyBeq]
  | .obj fs, b => by
    cases b <;> simp [tyBeq]
    exact fldsBeq_iff fs _
  | .dict a, b => by
    cases b <;> simp [tyBeq]
    exact tyBeq_iff a _
  | .arr a, b => by
    cases b <;> simp [tyBeq]
    exact tyBeq_iff a _
  | .union a c, b => by
    cases b <;> simp [tyBeq]
    rw [tyBeq_iff a _, tyBeq_iff c _]

def fldsBeq_iff : ∀ a b : Flds, fldsBeq a b = true ↔ a = b
  | .nil, b => by cases b <;> simp [fldsBeq]
  | .cons n o t r, b => by
    cases b <;> simp [fldsBeq]
    rw [tyBeq_iff t _, fldsBeq_iff r _]
    tauto
end

instance : DecidableEq Ty := fun a b => decidable_of_iff _ (tyBeq_iff a b)

instance : DecidableEq Flds := fun a b => decidable_of_iff _ (fldsBeq_iff a b)

/-- Field list as a plain list of `(name, optional, type)` triples. -/
def Flds.toList : Flds → List (List Char × Bool × Ty)
  | .nil => []
  | .cons n o t r => (n, o, t) :: Flds.toList r

/-- Build a field list from `(name, optional, type)` triples. -/
def Flds.ofList : List (List Char × Bool × Ty) → Flds
  | [] => .nil
  | (n, o, t) :: r => .cons n o t (Flds.ofList r)

/-- Convenience constructor for object schemas in theorem statements. -/
def objL (l : List (String × Bool × Ty)) : Ty :=
  .obj (Flds.ofList (l.map fun f => (f.1.data, f.2.1, f.2.2)))

/-- The member list of a union type in TypeScript's flattened normal form:
`never` is the empty union and contributes nothing. -/
def variants : Ty → List Ty
  | .union a b => variants a ++ variants b
  | .tNever => []
  | t => [t]

/-- Rebuild a right-nested union from a member list (empty list is `never`). -/
def buildU : List Ty → Ty
  | [] => .tNever
  | [t] => t
  | t :: ts => .union t (buildU ts)

/-- The canonical union of a list of types: flatten, drop `never`,
deduplicate — mirroring TypeScript's normalisation of `A | B`. -/
def mkUnion (l : List Ty) : Ty := buildU (l.flatMap variants).dedup

/-- First field with the given name, with its optionality flag
(TypeScript object types have no duplicate keys). -/
def lookupF : Flds → List Char → Option (Bool × Ty)
  | .nil, _ => none
  | .cons n o t rest, k => if n = k then some (o, t) else lookupF rest k

/-- One variant of `IsExplicitKey` (src/typeAt.ts:37-39):
`T extends { [P in K]: any }`.  An object type satisfies it exactly when
it declares a required property named `K` (an optional property fails the
optional-vs-required assignability check, and an index signature does not
satisfy a declared property requirement). -/
def explicitOne : Ty → List Char → Bool
  | .obj fs, k => match lookupF fs k with
    | some (o, _) => !o
    | none => false
  | _, _ => false

/-- `IsExplicitKey<T, K>` (src/typeAt.ts:37-39); the conditional type
distributes over the naked `T`, and `true | never` collapses to `true`. -/
def isExplicitKey (T : Ty) (k : List Char) : Bool :=
  (variants T).any (explicitOne · k)

/-- Membership of the string literal `K` in `keyof` of one union-free type:
object keys are the declared field names (optional ones included), a
string index signature contains every string key. -/
def keyofOne : Ty → List Char → Bool
  | .obj fs, k => (lookupF fs k).isSome
  | .dict _, _ => true
  | _, _ => false

/-- `K extends keyof T`.  `keyof` of a union is the intersection of the
member key sets, so the literal must be a key of every variant. -/
def keyofMem (T : Ty) (k : List Char) : Bool :=
  (variants T).all (keyofOne · k)

/-- Indexed access `T[K]` for one union-free type: an optional property
reads as `declared | undefined` (strictNullChecks), a dictionary reads as
its value type. -/
def indexOne : Ty → List Char → Ty
  | .obj fs, k => match lookupF fs k with
    | some (o, t) => if o then mkUnion [t, .tUndefined] else t
    | none => .tNever
  | .dict v, _ => v
  | _, _ => .tNever

/-- Indexed access `T[K]`, distributing over a union object type. -/
def indexT (T : Ty) (k : List Char) : Ty :=
  mkUnion ((variants T).map (indexOne · k))

/-- `Exclude<T, undefined>`. -/
def excludeUndefined (t : Ty) : Ty :=
  mkUnion ((variants t).filter (fun u => u ≠ .tUndefined))

/-- `NonNullable<T>` (`Exclude<T, null | undefined>`). -/
def nonNull (t : Ty) : Ty :=
  mkUnion ((variants t).filter (fun u => u ≠ .tNull && u ≠ .tUndefined))

/-- Whether a union-free type is an array type. -/
def isArrList : Ty → Bool
  | .arr _ => true
  | _ => false

/-- `T extends any[]` in a non-distributive position: every union member
must be an array (vacuously true for `never`). -/
def allArr (t : Ty) : Bool := (variants t).all isArrList

/-- `ArrayElementType<T>` (src/typeAt.ts:76) applied under the guard that
`T` is (a union of) array types: the union of the element types. -/
def arrElemTy (t : Ty) : Ty :=
  mkUnion ((variants t).map fun u => match u with
    | .arr e => e
    | _ => .tNever)

/-- One union-free type against `object` (objects, dictionaries and
arrays are object types; primitives, `null`, `undefined` are not).
Terminal leaves are opaque in this embedding, so their object-ness
(e.g. `Date`) is out of scope — the claims only use primitive leaves. -/
def extendsObjectOne : Ty → Bool
  | .obj _ => true
  | .dict _ => true
  | .arr _ => true
  | _ => false

/-- `T extends object` in a non-distributive position (all union members;
vacuously true for `never`). -/
def extendsObject (t : Ty) : Bool := (variants t).all extendsObjectOne

/-- `IsTerminal<T>` (src/typeAt.ts:273-279) for one union member:
primitives (and `null`/`undefined`, which fall through to the final
`true` branch) are terminal; arrays, object literals and dictionaries
are not. -/
def isTerminalOne : Ty → Bool
  | .obj _ => false
  | .dict _ => false
  | .arr _ => false
  | _ => true

/-- `Merged<T>` (src/typeAt.ts:22) flattens intersections; the embedding
has no intersection types, and a homomorphic mapped type is the identity
on every other shape, so `Merged` is the identity. -/
def merged (t : Ty) : Ty := t

/-- Make every field required with a `NonNullable` type — the mapped type
`{ [K in keyof T]-?: NonNullable<T[K]> }` on an object's field list. -/
def Flds.normReq : Flds → Flds
  | .nil => .nil
  | .cons n _ t r => .cons n false (nonNull t) (Flds.normReq r)

/-- One union member of `Normalize<T>` (src/typeAt.ts:12-16): arrays are
kept as-is; on an object shape the mapped type `{ [K in keyof T]-?:
NonNullable<T[K]> }` makes every field required and strips
`null`/`undefined` from its type (on a dictionary it maps the value
type); non-objects are unchanged. -/
def normalizeOne : Ty → Ty
  | .arr e => .arr e
  | .obj fs => .obj (Flds.normReq fs)
  | .dict v => .dict (nonNull v)
  | t => t

/-- `Normalize<T>` (src/typeAt.ts:12-16); distributes over the naked `T`. -/
def normalize (t : Ty) : Ty :=
  mkUnion ((variants t).map normalizeOne)

/-- `Normalize<Merged<T>>`, the combination used throughout `TypeAt`. -/
def normMerge (t : Ty) : Ty := normalize (merged t)

/-- `IsIndexKey<T, K>` (src/typeAt.ts:55-60).  Constantly false: the
source checks `IsExplicitKey<T, K> extends true ? never : true`, but
`IsExplicitKey` only evaluates to `true` or `never`, and `never extends
true` also selects the `never` branch — so no key is ever classified as
an index key and the branch is dead code. -/
def isIndexKey (_ : Ty) (_ : List Char) : Bool := false

/-- `IndexKeyType<T, K>` (src/typeAt.ts:65-70); dead code (`never`) for
the same reason as `isIndexKey`. -/
def indexKeyType (_ : Ty) (_ : List Char) : Ty := .tNever

/-- Split a character list at the first occurrence of `c`
(the separator is dropped). -/
def splitOn (c : Char) : List Char → Option (List Char × List Char)
  | [] => none
  | x :: xs =>
    if x = c then some ([], xs)
    else (splitOn c xs).map fun p => (x :: p.1, p.2)

/-- Template-literal split `${infer I}.${infer Rest}`: TypeScript matches
the literal `.` at its first occurrence. -/
def splitDot (s : List Char) : Option (List Char × List Char) :=
  splitOn '.' s

/-- Template-literal split `${infer Base}[${number}]${infer Rest}`: the
`[` is matched at its first occurrence and the `]` at the first
occurrence after it. -/
def bracketSplit (s : List Char) :
    Option (List Char × List Char × List Char) :=
  (splitOn '[' s).bind fun p =>
    (splitOn ']' p.2).map fun q => (p.1, q.1, q.2)

/-- Template-literal split `[${number}]${infer Rest}` (root-level array
access): the string must begin with `[`. -/
def rootParse : List Char → Option (List Char × List Char)
  | x :: rest => if x = '[' then splitOn ']' rest else none
  | [] => none

/-- Whether a character list is the canonical decimal form of a
non-negative integer — the strings that inhabit the template type
`` `${number}` `` at the index positions the grammar admits. -/
def isNatStr (s : List Char) : Bool :=
  !s.isEmpty && s.all Char.isDigit && (s = ['0'] || s.head? ≠ some '0')

/-- `IsDictionaryKey<T, K>` (src/typeAt.ts:124-130), distributing over
`T`: an object literal type satisfies `T extends {[key: string]: any}`
through its implicit index signature but fails `string extends keyof T`,
so only genuine dictionary variants with a dot-free key match. -/
def isDictionaryKey (T : Ty) (k : List Char) : Bool :=
  (variants T).any fun v => match v with
    | .dict _ => (splitDot k).isNone
    | _ => false

/-- `DictionaryKeyType<T, K>` (src/typeAt.ts:135-141): `T[keyof T]`, the
dictionary's value type, for dot-free keys; distributes over `T`. -/
def dictionaryKeyType (T : Ty) (k : List Char) : Ty :=
  mkUnion ((variants T).map fun v => match v with
    | .dict val => if (splitDot k).isNone then val else .tNever
    | _ => .tNever)

/-- `IsNestedKey<T, K>` (src/typeAt.ts:146-155): `K` splits as
`I.Rest`, `I` is in `keyof T` (every union member) and `T[I] extends
object`.  The source's guard `IsExplicitKey<T, I> extends true` is
vacuous: `IsExplicitKey` only evaluates to `true` or `never`, and `never
extends true` also selects the `true` branch (the checked type is an
alias application, not a naked parameter, so it does not distribute) —
so the guard imposes nothing and in particular the nested rule fires on
dictionary heads. -/
def isNestedKey (T : Ty) (k : List Char) : Bool :=
  match splitDot k with
  | some (i, _) => keyofMem T i && extendsObject (indexT T i)
  | none => false

/-- `IsOptionalKey<T, K>` (src/typeAt.ts:174-187): for a dotted `K = I.R`
the head `I` must be a key whose type contains `undefined` and whose
non-`undefined` part is an object; for a bare `K` the key's type must
contain `undefined`. -/
def isOptionalKey (T : Ty) (k : List Char) : Bool :=
  match splitDot k with
  | some (i, _) =>
    keyofMem T i && (variants (indexT T i)).contains .tUndefined
      && extendsObject (excludeUndefined (indexT T i))
  | none => keyofMem T k && (variants (indexT T k)).contains .tUndefined

/-- `IsArray<T, K>` (src/typeAt.ts:82-93) for one union member of `T`:
for an array type, `K` must match `` `[${number}]${string}` ``; otherwise
`K` must match `` `${Base}[${number}]${string}` `` with `Base` a key of
the member whose `NonNullable` value is an array type. -/
def isArrayOne (v : Ty) (k : List Char) : Bool :=
  if isArrList v then
    match rootParse k with
    | some (mid, _) => isNatStr mid
    | none => false
  else
    match bracketSplit k with
    | some (base, mid, _) =>
      isNatStr mid && keyofOne v base && allArr (nonNull (indexOne v base))
    | none => false

/-- `IsArray<T, K>` (src/typeAt.ts:82-93); distributes over the naked `T`. -/
def isArray (T : Ty) (k : List Char) : Bool :=
  (variants T).any (isArrayOne · k)

/-- `ExactType<T, K>` (src/typeAt.ts:28-31): `Normalize<Merged<T[K]>>`
behind the explicit-key test, distributing over `T`. -/
def exactType (T : Ty) (k : List Char) : Ty :=
  mkUnion ((variants T).map fun v =>
    if explicitOne v k then normMerge (indexOne v k) else .tNever)

/-- The body of `TypeAt<T, K>` (src/typeAt.ts:227-240) with the recursive
occurrences abstracted as `rec`.  The branches appear in the source's
fixed priority order: explicit key, index key (dead), nested dotted key,
array access, dictionary key, optional key, `never`.
`KeyType` (src/typeAt.ts:44-49), `NestedKeyType` (160-169), `ArrayType`
(99-118) and `OptionalKeyType` (192-203) are inlined at their use sites;
`KeyType` and `ArrayType` distribute over the naked `T`. -/
def typeAtBody (rec : Ty → List Char → Ty) (T : Ty) (s : List Char) : Ty :=
  if isExplicitKey T s then
    -- KeyType<T, K>: per union member, the declared property type
    mkUnion ((variants T).map fun v =>
      if explicitOne v s && keyofOne v s then indexOne v s else .tNever)
  else if isIndexKey T s then indexKeyType T s
  else if isNestedKey T s then
    -- NestedKeyType<T, K>; its IsExplicitKey guard is vacuous (see
    -- isNestedKey)
    match splitDot s with
    | some (i, rest) =>
      if keyofMem T i && extendsObject (indexT T i) then
        rec (normMerge (indexT T i)) rest
      else .tNever
    | none => .tNever
  else if isArray T s then
    -- ArrayType<T, K>; distributes over the union members of T
    mkUnion ((variants T).map fun v =>
      if isArrList v then
        match rootParse s with
        | some (mid, rest) =>
          if isNatStr mid then
            -- Rest = '' | `.${NestedRest}` | other chained text
            match rest with
            | [] => normMerge (arrElemTy v)
            | c :: r2 =>
              if c = '.' then rec (normMerge (arrElemTy v)) r2
              else rec (normMerge (arrElemTy v)) (c :: r2)
          else .tNever
        | none => .tNever
      else
        match bracketSplit s with
        | some (base, mid, rest) =>
          if isNatStr mid && keyofOne v base && allArr (nonNull (indexOne v base)) then
            match rest with
            | [] => normMerge (arrElemTy (nonNull (indexOne v base)))
            | c :: r2 =>
              if c = '.' then rec (normMerge (arrElemTy (nonNull (indexOne v base)))) r2
              else rec (normMerge (arrElemTy (nonNull (indexOne v base)))) (c :: r2)
          else .tNever
        | none => .tNever)
  else if isDictionaryKey T s then dictionaryKeyType T s
  else if isOptionalKey T s then
    -- OptionalKeyType<T, K>
    match splitDot s with
    | some (i, rest) =>
      if (variants (indexT T i)).contains .tUndefined then
        rec (excludeUndefined (indexT T i)) rest
      else .tNever
    | none =>
      if (variants (indexT T s)).contains .tUndefined then excludeUndefined (indexT T s)
      else .tNever
  else .tNever

/-- Fuelled unfolding of `TypeAt`; every recursive call is on a strictly
shorter path, so `length + 1` fuel suffices (`typeAt_eq` below). -/
def typeAtN : Nat → Ty → List Char → Ty
  | 0, _, _ => .tNever
  | n + 1, T, s => typeAtBody (typeAtN n) T s

/-- `TypeAt<T, K>` (src/typeAt.ts:227-240), the path resolver. -/
def typeAt (T : Ty) (s : List Char) : Ty := typeAtN (s.length + 1) T s

/-- `resolve(schema, path)` of the spec: `TypeAt` on a path string.
`Ty.tNever` is the Unresolvable sentinel. -/
def resolve (T : Ty) (p : String) : Ty := typeAt T p.data
/-! ### The path enumerator `Paths<T, Depth>` (src/typeAt.ts:353-377)

A path pattern is a token list: literal characters, the wildcard index
`` `${number}` `` (`PTok.nhole`) and the wildcard dictionary key
`` `${string}` `` (`PTok.shole`).  Template-literal concatenation is list
append, which keeps patterns in a canonical form. -/

/-- One token of a path pattern string. -/
inductive PTok where
  | ch (c : Char) : PTok
  | nhole : PTok
  | shole : PTok
deriving DecidableEq

/-- A path pattern: the union members of `Paths<T>` as template strings. -/
abbrev Pat := List PTok

/-- A literal string as a pattern. -/
def litP (s : List Char) : Pat := s.map PTok.ch

/-- The pattern `` `[${number}]` ``. -/
def brP : Pat := [.ch '[', .nhole, .ch ']']

/-- `GetArrayPathSegments<T>` (src/typeAt.ts:306-308): bracket chains for
(nested) array types; the empty string for anything else. -/
def segs : Ty → List Pat
  | .arr e => brP :: (segs e).map (fun q => brP ++ q)
  | _ => [[]]

/-- `T[K] extends (infer ArrayElement)[] | undefined`: every union member
is an array or `undefined` (vacuously true for `never`). -/
def arrayishMatch (ty : Ty) : Bool :=
  (variants ty).all fun u => isArrList u || u == Ty.tUndefined

/-- `T[K] extends Record<string, infer V>`: object literal types match
through their implicit index signature, dictionaries directly; arrays and
primitives do not. -/
def recordMatch (ty : Ty) : Bool :=
  (variants ty).all fun u => match u with
    | .obj _ => true
    | .dict _ => true
    | _ => false

/-- `string extends keyof T[K]`: `keyof` of a union is an intersection,
so every member must carry a string index signature. -/
def stringKeyof (ty : Ty) : Bool :=
  (variants ty).all fun u => match u with
    | .dict _ => true
    | _ => false

/-- The inferred `V` of `Record<string, infer V>` when all members are
dictionaries: the union of the value types. -/
def dictVals (ty : Ty) : Ty :=
  mkUnion ((variants ty).map fun u => match u with
    | .dict w => w
    | _ => .tNever)

/-- `T[K] extends object | undefined`. -/
def objUndefMatch (ty : Ty) : Bool :=
  (variants ty).all fun u => extendsObjectOne u || u == Ty.tUndefined

/-- `GetArrayElementPaths<U, D>` (src/typeAt.ts:321-327) for the element
union inferred from the field type `ty`, with the recursion hook `rec`:
per element-union member, nested arrays contribute nothing, terminal or
non-object members contribute nothing, and an object member `w`
contributes `` `[${number}].${Paths<w, D> & string}` `` — note the depth
is *not* decremented across the array hop. -/
def elemPB (rec : Nat → Ty → List Pat) (d : Nat) (ty : Ty) : List Pat :=
  ((variants ty).filterMap fun u => match u with
    | .arr e => some e
    | _ => none).flatMap fun e =>
    (variants e).flatMap fun w =>
      if isArrList w then []
      else if extendsObjectOne w && !isTerminalOne w then
        (rec d w).map (fun p => brP ++ PTok.ch '.' :: p)
      else []

/-- The per-field body of the mapped type in `Paths` (src/typeAt.ts:359-375)
for key pattern `kp` and field type `ty` (the `-?` modifier strips the
optional marker, so `ty` is the declared type).  The branches follow the
source order: array-ish field, `Record`-matching field (with and without
a real string index signature), object-or-undefined field, terminal
field.  `Paths` of a union distributes, so the recursive calls distribute
over the union members explicitly (duplicate patterns are irrelevant, the
output is a set); in the string-index branch the inferred `V` of
`Record<string, infer V>` is a naked parameter, so `V extends object`
distributes over the members of the value union. -/
def fieldPB (rec : Nat → Ty → List Pat) (d : Nat) (kp : Pat) (ty : Ty) :
    List Pat :=
  if arrayishMatch ty then
    [kp] ++ (segs ty).map (fun q => kp ++ q)
      ++ (elemPB rec d ty).map (fun q => kp ++ q)
  else if recordMatch ty then
    if stringKeyof ty then
      (variants (dictVals ty)).flatMap fun v =>
        if extendsObjectOne v then
          [kp, kp ++ [PTok.ch '.', PTok.shole]]
            ++ (rec (d - 1) v).map
                (fun p => kp ++ [PTok.ch '.', PTok.shole, PTok.ch '.'] ++ p)
        else [kp, kp ++ [PTok.ch '.', PTok.shole]]
    else [kp] ++ (rec (d - 1) ty).map (fun p => kp ++ PTok.ch '.' :: p)
  else if objUndefMatch ty then
    [kp] ++ ((variants ty).flatMap fun u =>
      if u = Ty.tUndefined then []
      else (rec (d - 1) u).map (fun p => kp ++ PTok.ch '.' :: p))
  else [kp]

/-- The body of `Paths<T, Depth>` (src/typeAt.ts:353-377) with the
recursion abstracted: depth `0` contributes nothing; the type distributes
over its union members; terminal members contribute nothing; an object
member contributes its fields' patterns; a dictionary member is mapped
over its string index signature (key pattern `` `${string}` ``); an
array member's mapped type contributes the string-typed member
`` `${number}` `` (its other members — `number` and the array method
types — are not path strings and fall outside the pattern language). -/
def pathsBody (rec : Nat → Ty → List Pat) (d : Nat) (T : Ty) : List Pat :=
  if d = 0 then []
  else
    (variants T).flatMap fun v =>
      if extendsObjectOne v && !isTerminalOne v then
        match v with
        | .obj fs => (Flds.toList fs).flatMap fun f => fieldPB rec d (litP f.1) f.2.2
        | .dict val => fieldPB rec d [PTok.shole] val
        | .arr _ => [[PTok.nhole]]
        | _ => []
      else []

mutual
/-- Structural size of an embedded type, used as recursion fuel for the
enumerator. -/
def tySize : Ty → Nat
  | .obj fs => 1 + fldsSize fs
  | .dict v => 1 + tySize v
  | .arr e => 1 + tySize e
  | .union a b => 1 + tySize a + tySize b
  | _ => 1

/-- Structural size of a field list. -/
def fldsSize : Flds → Nat
  | .nil => 0
  | .cons _ _ t r => 1 + tySize t + fldsSize r
end

/-- Fuelled unfolding of `Paths`; every recursive call is on a type of
strictly smaller size, so `tySize T` fuel suffices (`pathsO_eq` below). -/
def pathsN : Nat → Nat → Ty → List Pat
  | 0, _, _ => []
  | n + 1, d, T => pathsBody (pathsN n) d T

/-- `Paths<T, Depth>` (src/typeAt.ts:353-377), the path-pattern
enumerator (`enumeratePaths` of the spec). -/
def pathsO (d : Nat) (T : Ty) : List Pat := pathsN (tySize T) d T

/-- `MaxDepth` (src/typeAt.ts:284): the default depth budget. -/
def MaxDepth : Nat := 5

/-- `enumeratePaths(schema, maxDepth = 5)` of the spec. -/
def pathsOf (T : Ty) : List Pat := pathsO MaxDepth T

/-! ### Concrete schemas used by the claims -/

/-- A literal path string as a pattern. -/
def patS (s : String) : Pat := litP s.data

/-- The `k`-fold unrolling of the self-referential schema
`CircularType = { name: string; child?: CircularType }`
(src/test/types/test-types.ts).  `Ty` is a finite tree, so the circular
TypeScript interface is represented by its unrollings; `Paths` at depth
`d` only inspects the schema to depth `d`, so every unrolling of depth at
least `d` enumerates identically (proved below). -/
def circ : Nat → Ty
  | 0 => objL [("name", false, .tStr)]
  | n + 1 => objL [("name", false, .tStr), ("child", true, circ n)]

/-- The six-level schema `{a: {b: {c: {d: {e: {f: string}}}}}}`
(`DeepType` of src/test/types/test-types.ts, one level deeper than the
depth budget). -/
def deepSix : Ty :=
  objL [("a", false, objL [("b", false, objL [("c", false,
    objL [("d", false, objL [("e", false, objL [("f", false, .tStr)])])])])])]

/-- The spec's explicit-key-precedence schema (§8): a field literally
named `"a.b"` of shape `{c: number}` next to a nested `a: {b: {c:
string}}`. -/
def ambiguousSpec : Ty :=
  objL [("a.b", false, objL [("c", false, .tNum)]),
        ("a", false, objL [("b", false, objL [("c", false, .tStr)])])]

/-- A dictionary `{[key: string]: {inner: string}}`. -/
def dictInner : Ty := .dict (objL [("inner", false, .tStr)])

/-- A dictionary whose value schema nests an object:
`{[key: string]: {inner: {deep: string}}}`. -/
def dictDeep : Ty :=
  .dict (objL [("inner", false, objL [("deep", false, .tStr)])])

/-- `{opt?: {prop: string}}` (the spec's optional-unwrap schema, §8). -/
def optProp : Ty := objL [("opt", true, objL [("prop", false, .tStr)])]

/-- `{prop: string} | {prop?: number}`: a union whose second variant
resolves `prop` only through the optional-key rule. -/
def unionMixedRule : Ty :=
  .union (objL [("prop", false, .tStr)]) (objL [("prop", true, .tNum)])

/-- The union-distribution formula asserted by the spec (§4.4, "Union
handling") and by claim C6, stated in the spec's words rather than
translated from the source: resolving against a union is the union of
the per-variant resolutions, omitting Unresolvable variants, and is
Unresolvable when every variant is (`mkUnion` drops `tNever` members and
`variants Ty.tNever = []`). -/
def specUnionResolve (T : Ty) (p : String) : Ty :=
  mkUnion ((variants T).map fun v => resolve v p)

/-- The C10 schema `{opt?: X | null; f: Y | undefined}`, with the union
types written in canonical (flattened) form. -/
def c10schema (X Y : Ty) : Ty :=
  Ty.obj (.cons "opt".data true (mkUnion (variants X ++ [Ty.tNull]))
    (.cons "f".data false (mkUnion (variants Y ++ [Ty.tUndefined])) .nil))

mutual
/-- Schemas with "grammar-clean" field names — nonempty, free of `.` and
`[` — and no dictionaries (a dictionary accepts *any* bare string,
including bracketed fragments, as a key by design).  On this class the
malformed-path examples of the spec are Unresolvable. -/
def cleanTy : Ty → Bool
  | .obj fs => cleanFlds fs
  | .dict _ => false
  | .arr e => cleanTy e
  | .union a b => cleanTy a && cleanTy b
  | _ => true

/-- Field lists with clean names and clean field types. -/
def cleanFlds : Flds → Bool
  | .nil => true
  | .cons n _ t r =>
    !n.isEmpty && !n.contains '.' && !n.contains '[' && cleanTy t
      && cleanFlds r
end

/-- The decimal digit characters. -/
def digitChar : Nat → Char
  | 0 => '0'
  | 1 => '1'
  | 2 => '2'
  | 3 => '3'
  | 4 => '4'
  | 5 => '5'
  | 6 => '6'
  | 7 => '7'
  | 8 => '8'
  | _ => '9'

/-- Fuelled big-endian decimal writer (the fuel bounds the number of
digits, so `n + 1` always suffices). -/
def natCharsAux : Nat → Nat → List Char → List Char
  | 0, _, acc => acc
  | fuel + 1, n, acc =>
    if n < 10 then digitChar n :: acc
    else natCharsAux fuel (n / 10) (digitChar (n % 10) :: acc)

/-- The canonical decimal numeral of `n` — the string TypeScript writes
for the number literal `n` at a `` `${number}` `` position. -/
def natChars (n : Nat) : List Char := natCharsAux (n + 1) n []

/-- `s` is a concrete instantiation of the pattern `p`: literal
characters match themselves and each `` `${number}` `` hole is filled
with the canonical decimal numeral of an arbitrary natural number.  (A
`` `${string}` `` hole has no instantiation here: it only occurs in
dictionary patterns, which the amended round-trip claim excludes.) -/
inductive Inst : Pat → List Char → Prop where
  | nil : Inst [] []
  | ch {c : Char} {p : Pat} {s : List Char} :
      Inst p s → Inst (PTok.ch c :: p) (c :: s)
  | nat (n : Nat) {p : Pat} {s : List Char} :
      Inst p s → Inst (PTok.nhole :: p) (natChars n ++ s)

mutual
/-- The well-behaved schema class for the amended round trip: objects
with grammar-clean, duplicate-free field names, arrays, and the
primitive leaves.  Dictionaries (their dotted wildcard descent is broken,
C7), unions (`keyof` of a union is an intersection, so a path enumerated
from one variant need not resolve on the union), `null`/`undefined`
members (`Normalize` maps a `null` field to `never` one level down) and
`never` are excluded — each exclusion corresponds to a family of
counterexamples to the unamended claim. -/
def goodTy : Ty → Bool
  | .obj fs => goodFlds fs
  | .arr e => goodTy e
  | .tStr => true
  | .tNum => true
  | .tBool => true
  | _ => false

/-- Field lists of the well-behaved class: nonempty names free of the
path metacharacters, no duplicate names, well-behaved field types. -/
def goodFlds : Flds → Bool
  | .nil => true
  | .cons n _ t r =>
    !n.isEmpty && !n.contains '.' && !n.contains '[' && (lookupF r n).isNone
      && goodTy t && goodFlds r
end

/-- A concrete good schema for the C1 witness:
`{items: {id: number}[]; opt?: {b: string}}`. -/
def c1schema : Flds :=
  Flds.cons "items".data false
    (Ty.arr (Ty.obj (Flds.cons "id".data false Ty.tNum Flds.nil)))
    (Flds.cons "opt".data true
      (Ty.obj (Flds.cons "b".data false Ty.tStr Flds.nil)) Flds.nil)

/-- The enumerated pattern `` items[${number}].id `` of `c1schema`. -/
def c1pat : Pat :=
  litP "items".data ++ PTok.ch '[' :: PTok.nhole :: PTok.ch ']'
    :: PTok.ch '.' :: litP "id".data

/-! ### Properties of the string splitters -/

theorem splitOn_some {c : Char} :
    ∀ {s a b : List Char}, splitOn c s = some (a, b) → s = a ++ c :: b ∧ c ∉ a
  | [], a, b => by simp [splitOn]
  | x :: xs, a, b => by
    simp only [splitOn]
    by_cases hx : x = c
    · simp only [hx, if_pos rfl, Option.some.injEq, Prod.mk.injEq]
      rintro ⟨rfl, rfl⟩
      simp
    · simp only [if_neg hx, Option.map_eq_some']
      rintro ⟨⟨a', b'⟩, hs, heq⟩
      obtain ⟨rfl, hc⟩ := splitOn_some hs
      cases heq
      refine ⟨by simp, ?_⟩
      simp only [List.mem_cons, not_or]
      exact ⟨fun hcx => hx hcx.symm, hc⟩

theorem splitOn_length {c : Char} {s a b : List Char}
    (h : splitOn c s = some (a, b)) : b.length < s.length := by
  obtain ⟨rfl, -⟩ := splitOn_some h
  simp
  omega

theorem splitOn_append {c : Char} :
    ∀ {a : List Char} (b : List Char), c ∉ a → splitOn c (a ++ c :: b) = some (a, b)
  | [], b => by simp [splitOn]
  | x :: xs, b => by
    intro hx
    simp only [List.mem_cons, not_or] at hx
    have hxc : ¬x = c := fun h => hx.1 h.symm
    simp [splitOn, hxc, splitOn_append b hx.2]

theorem splitOn_none {c : Char} :
    ∀ {s : List Char}, splitOn c s = none ↔ c ∉ s
  | [] => by simp [splitOn]
  | x :: xs => by
    by_cases hx : x = c
    · subst hx
      simp [splitOn]
    · simp [splitOn, hx, Option.map_eq_none', splitOn_none, Ne.symm hx]

theorem splitDot_length {s a b : List Char}
    (h : splitDot s = some (a, b)) : b.length < s.length :=
  splitOn_length h

theorem bracketSplit_some {s base mid rest : List Char}
    (h : bracketSplit s = some (base, mid, rest)) :
    s = base ++ '[' :: mid ++ ']' :: rest ∧ '[' ∉ base ∧ ']' ∉ mid := by
  simp only [bracketSplit, Option.bind_eq_some, Option.map_eq_some'] at h
  obtain ⟨⟨a, r⟩, h1, ⟨m, r2⟩, h2, heq⟩ := h
  obtain ⟨rfl, h1b⟩ := splitOn_some h1
  obtain ⟨rfl, h2b⟩ := splitOn_some h2
  cases heq
  refine ⟨?_, h1b, h2b⟩
  simp

theorem bracketSplit_length {s base mid rest : List Char}
    (h : bracketSplit s = some (base, mid, rest)) : rest.length < s.length := by
  obtain ⟨rfl, -, -⟩ := bracketSplit_some h
  simp
  omega

theorem rootParse_some {s mid rest : List Char}
    (h : rootParse s = some (mid, rest)) :
    s = '[' :: mid ++ ']' :: rest ∧ ']' ∉ mid := by
  cases s with
  | nil => simp [rootParse] at h
  | cons x s' =>
    by_cases hx : x = '['
    · subst hx
      simp only [rootParse, if_pos rfl] at h
      obtain ⟨rfl, hm⟩ := splitOn_some h
      exact ⟨rfl, hm⟩
    · simp [rootParse, hx] at h

theorem rootParse_length {s mid rest : List Char}
    (h : rootParse s = some (mid, rest)) : rest.length < s.length := by
  obtain ⟨rfl, -⟩ := rootParse_some h
  simp
  omega

/-! ### Fuel adequacy for `typeAt` -/

set_option maxHeartbeats 1000000 in
theorem typeAtBody_congr {r₁ r₂ : Ty → List Char → Ty} {T : Ty} {s : List Char}
    (h : ∀ T' s', s'.length < s.length → r₁ T' s' = r₂ T' s') :
    typeAtBody r₁ T s = typeAtBody r₂ T s := by
  unfold typeAtBody
  split
  · rfl
  split
  · rfl
  split
  · -- nested-key branch
    split
    next i rest heq =>
      split
      · exact h _ _ (splitDot_length heq)
      · rfl
    next => rfl
  split
  · -- array branch
    refine congrArg mkUnion (List.map_congr_left fun v hv => ?_)
    split
    · split
      next mid rest heq =>
        split
        · split
          · rfl
          next c r2 =>
            have hr : (c :: r2).length < s.length := rootParse_length heq
            split
            · refine h _ _ ?_
              simp only [List.length_cons] at hr
              omega
            · exact h _ _ hr
        · rfl
      next => rfl
    · split
      next base mid rest heq =>
        split
        · split
          · rfl
          next c r2 =>
            have hr : (c :: r2).length < s.length := bracketSplit_length heq
            split
            · refine h _ _ ?_
              simp only [List.length_cons] at hr
              omega
            · exact h _ _ hr
        · rfl
      next => rfl
  split
  · rfl
  split
  · -- optional branch
    split
    next i rest heq =>
      split
      · exact h _ _ (splitDot_length heq)
      · rfl
    next => rfl
  rfl

theorem typeAtN_congr :
    ∀ {n m : Nat} {T : Ty} {s : List Char}, s.length < n → s.length < m →
      typeAtN n T s = typeAtN m T s
  | n + 1, m + 1, T, s, hn, hm => by
    simp only [typeAtN]
    exact typeAtBody_congr fun T' s' hs =>
      typeAtN_congr (by omega) (by omega)

/-- The intended fixpoint equation of `TypeAt`: `typeAt` satisfies the
dispatch body with itself at the recursive occurrences. -/
theorem typeAt_eq (T : Ty) (s : List Char) :
    typeAt T s = typeAtBody typeAt T s := by
  show typeAtN (s.length + 1) T s = _
  simp only [typeAtN]
  exact typeAtBody_congr fun T' s' hs =>
    typeAtN_congr (by omega) (by omega)

/-! ### Fuel adequacy for `pathsO` -/

theorem listFlatMapCongr {α β : Type _} {l : List α} {f g : α → List β}
    (h : ∀ a ∈ l, f a = g a) : l.flatMap f = l.flatMap g := by
  induction l with
  | nil => rfl
  | cons x xs ih =>
    simp only [List.flatMap_cons]
    rw [h x (by simp), ih fun a ha => h a (by simp [ha])]

theorem tySize_pos : ∀ t : Ty, 1 ≤ tySize t
  | .tStr | .tNum | .tBool | .tNull | .tUndefined | .tNever => le_refl 1
  | .obj _ => by simp [tySize]
  | .dict _ => by simp [tySize]
  | .arr _ => by simp [tySize]
  | .union a b => by simp only [tySize]; omega

theorem mem_variants_size : ∀ {t u : Ty}, u ∈ variants t → tySize u ≤ tySize t
  | .union a b, u => by
    simp only [variants, List.mem_append]
    rintro (h | h)
    · have := mem_variants_size h
      simp only [tySize]
      omega
    · have := mem_variants_size h
      simp only [tySize]
      omega
  | .tNever, u => by simp [variants]
  | .tStr, u => by simp [variants]; rintro rfl; rfl
  | .tNum, u => by simp [variants]; rintro rfl; rfl
  | .tBool, u => by simp [variants]; rintro rfl; rfl
  | .tNull, u => by simp [variants]; rintro rfl; rfl
  | .tUndefined, u => by simp [variants]; rintro rfl; rfl
  | .obj fs, u => by simp [variants]; rintro rfl; rfl
  | .dict v, u => by simp [variants]; rintro rfl; rfl
  | .arr e, u => by simp [variants]; rintro rfl; rfl

theorem mem_flds_size : ∀ {fs : Flds} {f : List Char × Bool × Ty},
    f ∈ Flds.toList fs → tySize f.2.2 < 1 + fldsSize fs
  | .nil, f => by simp [Flds.toList]
  | .cons n o t r, f => by
    simp only [Flds.toList, List.mem_cons]
    rintro (rfl | h)
    · simp only [fldsSize]
      omega
    · have := mem_flds_size h
      simp only [fldsSize]
      omega

theorem variants_atomic : ∀ {t u : Ty}, u ∈ variants t → variants u = [u]
  | .union a b, u => by
    simp only [variants, List.mem_append]
    rintro (h | h)
    · exact variants_atomic h
    · exact variants_atomic h
  | .tNever, u => by simp [variants]
  | .tStr, u => by simp [variants]; rintro rfl; rfl
  | .tNum, u => by simp [variants]; rintro rfl; rfl
  | .tBool, u => by simp [variants]; rintro rfl; rfl
  | .tNull, u => by simp [variants]; rintro rfl; rfl
  | .tUndefined, u => by simp [variants]; rintro rfl; rfl
  | .obj fs, u => by simp [variants]; rintro rfl; rfl
  | .dict v, u => by simp [variants]; rintro rfl; rfl
  | .arr e, u => by simp [variants]; rintro rfl; rfl

theorem flatMap_variants_self : ∀ t : Ty, (variants t).flatMap variants = variants t
  | .union a b => by
    simp only [variants, List.flatMap_append]
    rw [flatMap_variants_self a, flatMap_variants_self b]
  | .tNever => rfl
  | .tStr => by simp [variants]
  | .tNum => by simp [variants]
  | .tBool => by simp [variants]
  | .tNull => by simp [variants]
  | .tUndefined => by simp [variants]
  | .obj _ => by simp [variants]
  | .dict _ => by simp [variants]
  | .arr _ => by simp [variants]

theorem variants_buildU :
    ∀ {m : List Ty}, (∀ u ∈ m, variants u = [u]) → variants (buildU m) = m
  | [], _ => rfl
  | [t], h => h t (by simp)
  | t :: t' :: ts, h => by
    show variants (.union t (buildU (t' :: ts))) = _
    simp only [variants]
    rw [h t (by simp), variants_buildU fun u hu => h u (by simp [hu])]
    rfl

theorem variants_mkUnion (l : List Ty) :
    variants (mkUnion l) = (l.flatMap variants).dedup := by
  refine variants_buildU fun u hu => ?_
  rw [List.mem_dedup, List.mem_flatMap] at hu
  obtain ⟨x, -, hx⟩ := hu
  exact variants_atomic hx

theorem mem_dictVals_size {ty v : Ty} (hv : v ∈ variants (dictVals ty)) :
    tySize v < tySize ty := by
  rw [dictVals, variants_mkUnion, List.mem_dedup, List.mem_flatMap] at hv
  obtain ⟨u, hu, hvu⟩ := hv
  rw [List.mem_map] at hu
  obtain ⟨u2, hu2, rfl⟩ := hu
  cases u2
  case dict w =>
    have hvu2 : v ∈ variants w := hvu
    have h1 := mem_variants_size hvu2
    have h2 := mem_variants_size hu2
    simp only [tySize] at h2
    omega
  all_goals simp [variants] at hvu


theorem elemPB_congr {r₁ r₂ : Nat → Ty → List Pat} {d : Nat} {ty : Ty}
    (h : ∀ d' T', tySize T' < tySize ty → r₁ d' T' = r₂ d' T') :
    elemPB r₁ d ty = elemPB r₂ d ty := by
  unfold elemPB
  refine listFlatMapCongr fun e he => ?_
  simp only [List.mem_filterMap] at he
  obtain ⟨u, hu, hue⟩ := he
  have hu2 : u = .arr e := by
    cases u <;> simp_all
  subst hu2
  have hes : tySize e < tySize ty :=
    lt_of_lt_of_le (by simp only [tySize]; omega) (mem_variants_size hu)
  refine listFlatMapCongr fun w hw => ?_
  have hws : tySize w < tySize ty := lt_of_le_of_lt (mem_variants_size hw) hes
  split
  · rfl
  split
  · rw [h d w hws]
  · rfl

theorem fieldPB_congr {r₁ r₂ : Nat → Ty → List Pat} {d : Nat} {kp : Pat} {ty : Ty}
    (h : ∀ d' T', tySize T' ≤ tySize ty → r₁ d' T' = r₂ d' T') :
    fieldPB r₁ d kp ty = fieldPB r₂ d kp ty := by
  unfold fieldPB
  split
  · rw [elemPB_congr fun d' T' hs => h d' T' (le_of_lt hs)]
  split
  · split
    · refine listFlatMapCongr fun v hv => ?_
      split
      · rw [h (d - 1) v (le_of_lt (mem_dictVals_size hv))]
      · rfl
    · rw [h (d - 1) ty (le_refl _)]
  split
  · refine congrArg _ (listFlatMapCongr fun u hu => ?_)
    split
    · rfl
    · rw [h (d - 1) u (mem_variants_size hu)]
  · rfl

theorem pathsBody_congr {r₁ r₂ : Nat → Ty → List Pat} {d : Nat} {T : Ty}
    (h : ∀ d' T', tySize T' < tySize T → r₁ d' T' = r₂ d' T') :
    pathsBody r₁ d T = pathsBody r₂ d T := by
  unfold pathsBody
  split
  · rfl
  refine listFlatMapCongr fun v hv => ?_
  have hvs := mem_variants_size hv
  split
  · split
    next fs =>
      refine listFlatMapCongr fun f hf => ?_
      refine fieldPB_congr fun d' T' hT' => ?_
      refine h d' T' (lt_of_le_of_lt hT' ?_)
      refine lt_of_lt_of_le ?_ hvs
      simpa [tySize] using mem_flds_size hf
    next val =>
      refine fieldPB_congr fun d' T' hT' => ?_
      refine h d' T' (lt_of_le_of_lt hT' ?_)
      refine lt_of_lt_of_le ?_ hvs
      simp [tySize]
    next => rfl
    next => rfl
  · rfl

theorem pathsN_congr :
    ∀ {n m : Nat} {d : Nat} {T : Ty}, tySize T ≤ n → tySize T ≤ m →
      pathsN n d T = pathsN m d T
  | n + 1, m + 1, d, T, hn, hm => by
    simp only [pathsN]
    refine pathsBody_congr fun d' T' hT' => pathsN_congr (by omega) (by omega)
  | 0, _, _, T, hn, _ => absurd hn (by have := tySize_pos T; omega)
  | _ + 1, 0, _, T, _, hm => absurd hm (by have := tySize_pos T; omega)

/-- The intended fixpoint equation of `Paths`. -/
theorem pathsO_eq (d : Nat) (T : Ty) :
    pathsO d T = pathsBody pathsO d T := by
  show pathsN (tySize T) d T = _
  obtain ⟨k, hk⟩ : ∃ k, tySize T = k + 1 := by
    have := tySize_pos T
    exact ⟨tySize T - 1, by omega⟩
  rw [hk]
  simp only [pathsN]
  refine pathsBody_congr fun d' T' hT' => ?_
  show pathsN k d' T' = pathsO d' T'
  exact pathsN_congr (by omega) (le_refl _)

/-! ### Union normalisation lemmas

The members of `variants t` are always atoms: non-union, non-`never`
constructors.  `mkUnion` is therefore idempotent in the ways TypeScript's
union normalisation is, which the following lemmas make precise. -/

theorem mkUnion_variants (t : Ty) : mkUnion (variants t) = mkUnion [t] := by
  unfold mkUnion
  rw [flatMap_variants_self]
  simp [variants]

theorem dedup_union_eq {α : Type _} [DecidableEq α] :
    ∀ (l₁ l₂ : List α), l₁.dedup ∪ l₂ = l₁ ∪ l₂
  | [], l₂ => rfl
  | a :: l, l₂ => by
    by_cases ha : a ∈ l
    · rw [List.dedup_cons_of_mem ha, List.cons_union,
        List.insert_of_mem (List.mem_union_left ha l₂), dedup_union_eq l l₂]
    · rw [List.dedup_cons_of_not_mem ha, List.cons_union, List.cons_union,
        dedup_union_eq l l₂]

theorem dedup_append_dedup {α : Type _} [DecidableEq α] (l₁ l₂ : List α) :
    (l₁.dedup ++ l₂).dedup = (l₁ ++ l₂).dedup := by
  rw [List.dedup_append, List.dedup_append, dedup_union_eq]

theorem dedup_flatMap_dedup {α β : Type _} [DecidableEq β] :
    ∀ (l : List α) (f : α → List β),
      (l.flatMap fun x => (f x).dedup).dedup = (l.flatMap f).dedup
  | [], _ => rfl
  | a :: l, f => by
    simp only [List.flatMap_cons]
    rw [dedup_append_dedup, List.dedup_append, List.dedup_append,
      dedup_flatMap_dedup l f]

theorem mkUnion_map_mkUnion {α : Type _} (l : List α) (g : α → List Ty) :
    mkUnion (l.map fun x => mkUnion (g x)) = mkUnion (l.flatMap g) := by
  refine congrArg buildU ?_
  calc ((l.map fun x => mkUnion (g x)).flatMap variants).dedup
      = (l.flatMap fun x => ((g x).flatMap variants).dedup).dedup := by
        rw [List.flatMap_map]
        exact congrArg List.dedup
          (listFlatMapCongr fun a _ => variants_mkUnion (g a))
    _ = (l.flatMap fun x => (g x).flatMap variants).dedup :=
        dedup_flatMap_dedup l _
    _ = ((l.flatMap g).flatMap variants).dedup := by
        rw [List.flatMap_assoc]

theorem tNever_not_mem_variants : ∀ {t : Ty}, Ty.tNever ∉ variants t
  | .union a b => by
    simp only [variants, List.mem_append]
    rintro (h | h)
    · exact tNever_not_mem_variants h
    · exact tNever_not_mem_variants h
  | .tNever => by simp [variants]
  | .tStr => by simp [variants]
  | .tNum => by simp [variants]
  | .tBool => by simp [variants]
  | .tNull => by simp [variants]
  | .tUndefined => by simp [variants]
  | .obj _ => by simp [variants]
  | .dict _ => by simp [variants]
  | .arr _ => by simp [variants]

/-- A canonical member list rebuilds to the same type. -/
theorem mkUnion_self {t : Ty} (hd : (variants t).Nodup)
    (ht : buildU (variants t) = t) : mkUnion [t] = t := by
  rw [← mkUnion_variants]
  unfold mkUnion
  rw [flatMap_variants_self, List.dedup_eq_self.mpr hd, ht]

/-! ### C3 — explicit-dotted-key vs nested resolution of "a.b.c" -/

/-- C3 counterexample: on the spec's schema (field `"a.b": {c: number}`
plus nested `a: {b: {c: string}}`) the three-segment path `"a.b.c"` does
*not* resolve to `number` as the claim states: the resolver's
template-literal split takes the *first* dot, so rule 3 fires on the
explicit key `a` and navigates `a → b → c`, yielding `string`. -/
theorem c3_counterexample : resolve ambiguousSpec "a.b.c" ≠ Ty.tNum := by decide

/-- C3 (amended): `resolve(S, "a.b.c")` resolves through the nested
branch `a → b → c` and yields `string`; the explicitly declared `"a.b"`
field wins only when the path is exactly the literal `"a.b"`, which
resolves to its declared shape `{c: number}`. -/
theorem c3_nested_branch_wins :
    resolve ambiguousSpec "a.b.c" = Ty.tStr ∧
      resolve ambiguousSpec "a.b" = objL [("c", false, Ty.tNum)] := by decide

/-! ### C5 — resolution is depth-free -/

/-- C5: `TypeAt` takes no depth budget (`typeAt : Ty → List Char → Ty`
has no depth parameter), and on the schema `{a:{b:{c:{d:{e:{f:
string}}}}}}`, which is nested beyond the default budget of 5, the path
`a.b.c.d.e.f` still resolves to `string` even though the depth-5
enumeration does not contain that path. -/
theorem c5_resolution_depth_free :
    resolve deepSix "a.b.c.d.e.f" = Ty.tStr ∧
      patS "a.b.c.d.e.f" ∉ pathsOf deepSix ∧
      patS "a.b.c.d.e" ∈ pathsOf deepSix := by decide

/-! ### C7 — dictionary descent boundary -/

/-- C7 (amended): dictionary descent has *no* one-level boundary.  A
bare key resolves to the value schema (rule 5), `"foo.inner"` resolves
to `T2` through the nested rule — whose `IsExplicitKey` guard is vacuous
(`never extends true` selects the `true` branch), so a dictionary head
`foo` with `keyof D ⊇ string` and object `D["foo"]` fires it — and,
refuting the claim's "deeper than one level is Unresolvable", the
two-level dotted continuation `"foo.inner.deep"` resolves as well: the
descent is unlimited. -/
theorem c7_dictionary_descent :
    resolve dictInner "foo" = objL [("inner", false, Ty.tStr)] ∧
      resolve dictInner "foo.inner" = Ty.tStr ∧
      resolve dictDeep "foo.inner.deep" = Ty.tStr := by decide

/-- C7 counterexample to the claimed exact boundary: on
`{[key: string]: {inner: {deep: string}}}` the dotted continuation
deeper than one level is *not* Unresolvable — `foo.inner.deep`
resolves to `string`. -/
theorem c7_dictionary_counterexample :
    resolve dictDeep "foo.inner.deep" = Ty.tStr ∧ Ty.tStr ≠ Ty.tNever := by
  decide

/-! ### C8 — optional unwrap -/

/-- C8: on `{opt?: {prop: string}}` the dotted path `opt.prop` resolves
to `string` with the optional wrapper stripped, and the enumeration
contains both `opt` and `opt.prop` — optionality removes no path. -/
theorem c8_optional_unwrap :
    resolve optProp "opt.prop" = Ty.tStr ∧
      resolve optProp "opt" = objL [("prop", false, Ty.tStr)] ∧
      patS "opt" ∈ pathsOf optProp ∧ patS "opt.prop" ∈ pathsOf optProp := by
  decide

/-! ### Counterexamples for C1, C2, C6, C9, C10 -/

/-- C1 counterexample: for the schema `{"a.b": {c: number}}` the
enumeration contains the (wildcard-free) pattern `a.b.c`, but resolving
the very same string is Unresolvable: rule 1 needs the whole path as a
literal key, and rule 3 splits at the *first* dot, looking for a field
named `a`, which does not exist. -/
theorem c1_round_trip_counterexample :
    patS "a.b.c" ∈ pathsOf (objL [("a.b", false, objL [("c", false, Ty.tNum)])]) ∧
      resolve (objL [("a.b", false, objL [("c", false, Ty.tNum)])]) "a.b.c"
        = Ty.tNever := by decide

/-- C2 counterexample: when the dotted-name field is declared *optional*
(`{"a.b"?: number; a: {b: string}}`), the explicit key does not win:
`IsExplicitKey` rejects optional properties, so rule 3 navigates
`a → b` and yields `string`, not the declared field's `number`. -/
theorem c2_explicit_key_counterexample :
    resolve (objL [("a.b", true, Ty.tNum),
        ("a", false, objL [("b", false, Ty.tStr)])]) "a.b" = Ty.tStr ∧
      Ty.tStr ≠ Ty.tNum := by decide

/-- C6 counterexample: on `{prop: string} | {prop?: number}` the code
resolves `prop` to `string` alone — the dispatch picks rule 1 for the
whole union and drops the optional variant even though that variant
resolves on its own (to `number` via rule 6) — while the claim's formula
demands `string | number`. -/
theorem c6_union_counterexample :
    resolve unionMixedRule "prop" = Ty.tStr ∧
      resolve (objL [("prop", true, Ty.tNum)]) "prop" = Ty.tNum ∧
      specUnionResolve unionMixedRule "prop" = Ty.union Ty.tStr Ty.tNum ∧
      resolve unionMixedRule "prop" ≠ specUnionResolve unionMixedRule "prop" := by
  decide

/-- C9 counterexample: `resolve` is not Unresolvable on every malformed
path — a schema may declare the malformed string itself as a field name
(`{"a..b": number}`), and rule 1 resolves it. -/
theorem c9_malformed_counterexample :
    resolve (objL [("a..b", false, Ty.tNum)]) "a..b" = Ty.tNum ∧
      Ty.tNum ≠ Ty.tNever := by decide

/-! ### Helper lemmas for the general claim theorems -/

theorem flatMapSingletonMap {α β : Type _} (l : List α) (f : α → β) :
    (l.flatMap fun x => [f x]) = l.map f := by
  induction l with
  | nil => rfl
  | cons a l ih => simp [List.flatMap_cons, ih]

theorem explicitOne_keyofOne {v : Ty} {k : List Char}
    (h : explicitOne v k = true) : keyofOne v k = true := by
  cases v <;> simp_all [explicitOne, keyofOne]
  next fs =>
    cases hl : lookupF fs k
    · rw [hl] at h
      simp at h
    · simp

/-- Fuelled form of `typeAt_variants_nil`: on a type with no union
members the nested rule fires vacuously for every dotted path (`keyof
never` contains everything and `never extends object` holds), but the
recursion runs on `never` with a strictly shorter path and bottoms out
at the empty path. -/
theorem typeAt_variants_nil_fuel : ∀ (n : Nat) {T : Ty},
    variants T = [] → ∀ {s : List Char}, s.length ≤ n →
      typeAt T s = Ty.tNever
  | 0, T, hv, s, hlen => by
    have hs : s = [] := List.length_eq_zero.mp (by omega)
    subst hs
    rw [typeAt_eq]
    unfold typeAtBody
    have hex : isExplicitKey T [] = false := by simp [isExplicitKey, hv]
    have hix : ∀ i, indexT T i = Ty.tNever := fun i => by
      simp [indexT, hv, mkUnion, buildU]
    have hne : isNestedKey T [] = false := rfl
    have har : isArray T [] = false := by simp [isArray, hv]
    have hdk : isDictionaryKey T [] = false := by simp [isDictionaryKey, hv]
    have hop : isOptionalKey T [] = false := by
      unfold isOptionalKey
      rw [show splitDot ([] : List Char) = none from rfl]
      simp [hix, variants]
    rw [hex, hne, har, hdk, hop]
    simp [isIndexKey]
  | n + 1, T, hv, s, hlen => by
    rw [typeAt_eq]
    unfold typeAtBody
    have hex : isExplicitKey T s = false := by simp [isExplicitKey, hv]
    have hix : ∀ i, indexT T i = Ty.tNever := fun i => by
      simp [indexT, hv, mkUnion, buildU]
    have har : isArray T s = false := by simp [isArray, hv]
    have hdk : isDictionaryKey T s = false := by simp [isDictionaryKey, hv]
    have hop : isOptionalKey T s = false := by
      unfold isOptionalKey
      cases hsd : splitDot s with
      | none => simp [hix, variants]
      | some p => simp [hix, variants]
    rw [hex, har, hdk, hop]
    simp only [isIndexKey, Bool.false_eq_true, if_false]
    by_cases hne : isNestedKey T s = true
    · rw [if_pos hne]
      cases hsd : splitDot s with
      | none =>
        unfold isNestedKey at hne
        rw [hsd] at hne
      | some p =>
        obtain ⟨i, rest⟩ := p
        show (if (keyofMem T i && extendsObject (indexT T i)) = true then
            typeAt (normMerge (indexT T i)) rest else Ty.tNever) = Ty.tNever
        split
        · rw [hix i, show normMerge Ty.tNever = Ty.tNever from rfl]
          have hrl : rest.length < s.length := splitDot_length hsd
          exact typeAt_variants_nil_fuel n
            (show variants Ty.tNever = [] from rfl) (by omega)
        · rfl
    · rw [if_neg hne]

/-- A type with no union members (TypeScript `never`, possibly written as
a union of `never`s) resolves every path to `never`. -/
theorem typeAt_variants_nil {T : Ty} (hv : variants T = []) (s : List Char) :
    typeAt T s = Ty.tNever :=
  typeAt_variants_nil_fuel s.length hv (le_refl _)

/-- A single (atomic) object type with a required declared key resolves
that key through rule 1 to the canonicalised declared type. -/
theorem typeAt_atom_explicit {v : Ty} {k : List Char}
    (hatom : variants v = [v]) (h : explicitOne v k = true) :
    typeAt v k = mkUnion [indexOne v k] := by
  rw [typeAt_eq]
  unfold typeAtBody
  have hex : isExplicitKey v k = true := by simp [isExplicitKey, hatom, h]
  rw [if_pos hex, hatom]
  simp [h, explicitOne_keyofOne h]

/-! ### C2 — explicit dotted key vs nested navigation (general form) -/

/-- C2 (amended): whenever an object schema declares a *required* field
literally named `"a.b"` (whatever other fields, including a nested
`a.b`-producing structure, it has), resolving the path `"a.b"` returns
that field's declared schema: rule 1 fires before the nested-key rule.
The canonicity hypothesis `mkUnion [X] = X` says the declared type is in
TypeScript union normal form.  (The unamended claim, quantifying over
*any* explicitly declared field, fails for optional fields —
`c2_explicit_key_counterexample`.) -/
theorem c2_explicit_key_wins_amended (fs : Flds) (X : Ty)
    (h : lookupF fs "a.b".data = some (false, X))
    (hc : mkUnion [X] = X) :
    resolve (Ty.obj fs) "a.b" = X := by
  show typeAt (Ty.obj fs) "a.b".data = X
  rw [typeAt_eq]
  unfold typeAtBody
  have h1 : explicitOne (Ty.obj fs) "a.b".data = true := by
    simp [explicitOne, h]
  have hex : isExplicitKey (Ty.obj fs) "a.b".data = true := by
    simp [isExplicitKey, variants, h1]
  rw [if_pos hex]
  show mkUnion ([Ty.obj fs].map _) = X
  simp only [List.map_cons, List.map_nil, h1, explicitOne_keyofOne h1,
    Bool.and_self, if_pos]
  have h3 : indexOne (Ty.obj fs) "a.b".data = X := by
    simp [indexOne, h]
  rw [h3, hc]

/-- Witness for `c2_explicit_key_wins_amended`: the spec's own schema. -/
theorem c2_explicit_key_witness :
    resolve ambiguousSpec "a.b" = objL [("c", false, Ty.tNum)] :=
  c2_explicit_key_wins_amended _ _ (by decide) (by decide)

/-! ### C6 — union distribution (general amended form) -/

/-- C6 (amended): when every union member declares the segment as a
*required* explicit field, resolution does distribute: the result is the
union of the per-variant resolutions (`specUnionResolve`, the spec's
formula; `mkUnion` drops Unresolvable members, and an empty union — all
members Unresolvable — is Unresolvable).  In general the dispatch
applies the first rule matched by *any* member to the whole union, so a
member resolvable only by a later rule is dropped
(`c6_union_counterexample`). -/
theorem c6_union_distribution_amended (T : Ty) (p : String)
    (h : ∀ v ∈ variants T, explicitOne v p.data = true) :
    resolve T p = specUnionResolve T p := by
  show typeAt T p.data = _
  unfold specUnionResolve
  by_cases hv : variants T = []
  · rw [typeAt_variants_nil hv, hv]
    simp [mkUnion, buildU]
  · obtain ⟨v, hvm⟩ := List.exists_mem_of_ne_nil _ hv
    rw [typeAt_eq]
    unfold typeAtBody
    have hex : isExplicitKey T p.data = true := by
      simp only [isExplicitKey, List.any_eq_true]
      exact ⟨v, hvm, h v hvm⟩
    rw [if_pos hex]
    have hmap : (variants T).map (fun u =>
        if explicitOne u p.data && keyofOne u p.data then indexOne u p.data
        else Ty.tNever) = (variants T).map (fun u => indexOne u p.data) := by
      refine List.map_congr_left fun u hu => ?_
      rw [h u hu, explicitOne_keyofOne (h u hu)]
      rfl
    rw [hmap]
    have hres : (variants T).map (fun u => resolve u p)
        = (variants T).map (fun u => mkUnion [indexOne u p.data]) := by
      refine List.map_congr_left fun u hu => ?_
      exact typeAt_atom_explicit (variants_atomic hu) (h u hu)
    rw [hres, mkUnion_map_mkUnion, flatMapSingletonMap]

/-- Witness for `c6_union_distribution_amended`: a two-member union whose
members both declare `other` as a required field. -/
theorem c6_union_distribution_witness :
    resolve (Ty.union (objL [("other", false, Ty.tNum)])
        (objL [("other", false, Ty.tBool)])) "other"
      = specUnionResolve (Ty.union (objL [("other", false, Ty.tNum)])
        (objL [("other", false, Ty.tBool)])) "other" :=
  c6_union_distribution_amended _ _ (by decide)

theorem flatMap_variants_atoms :
    ∀ {m : List Ty}, (∀ u ∈ m, variants u = [u]) → m.flatMap variants = m
  | [], _ => rfl
  | a :: m, h => by
    simp only [List.flatMap_cons]
    rw [h a (by simp), flatMap_variants_atoms fun u hu => h u (by simp [hu])]
    rfl

theorem variants_mkUnion_atoms {m : List Ty}
    (h : ∀ u ∈ m, variants u = [u]) (hd : m.Nodup) :
    variants (mkUnion m) = m := by
  rw [variants_mkUnion, flatMap_variants_atoms h, List.dedup_eq_self.mpr hd]

theorem mkUnion_singleton_mkUnion (l : List Ty) :
    mkUnion [mkUnion l] = mkUnion l := by
  refine congrArg buildU ?_
  show ([mkUnion l].flatMap variants).dedup = _
  have h1 : [mkUnion l].flatMap variants = variants (mkUnion l) := by
    simp [List.flatMap_cons]
  rw [h1, variants_mkUnion]
  exact List.dedup_idem

theorem containsIffMem {α : Type _} [DecidableEq α] {l : List α} {a : α} :
    l.contains a = true ↔ a ∈ l := by
  simp [List.contains, List.elem_iff]

/-- C10 counterexample: for `{opt?: (string | undefined) | null}` the
resolver yields `string | null` — the *explicitly declared* `undefined`
is stripped together with the optional marker's (TypeScript unions are
sets, so the two `undefined`s coincide and `Exclude<_, undefined>`
removes both), contradicting the claim's "never an explicitly declared
undefined". -/
theorem c10_absence_counterexample :
    resolve (objL [("opt", true, .union (.union Ty.tStr Ty.tUndefined) Ty.tNull)])
        "opt" = Ty.union Ty.tStr Ty.tNull ∧
      Ty.union Ty.tStr Ty.tNull
        ≠ Ty.union (Ty.union Ty.tStr Ty.tUndefined) Ty.tNull := by decide

/-- C10 (amended): on `{opt?: X | null; f: Y | undefined}` — with the
payloads not already containing the stripped member — resolving `opt`
strips exactly the `undefined` of the optional marker, keeping `null`
(`X | null` comes back), while the required field `f` keeps its
explicitly declared `undefined` (`Y | undefined` comes back).  Optional
resolution strips `undefined` as a whole, however, so a `X` that itself
contains `undefined` loses it too (`c10_absence_counterexample`); hence
the hypotheses. -/
theorem c10_absence_stripping_amended (X Y : Ty)
    (hXnd : (variants X).Nodup) (hXu : Ty.tUndefined ∉ variants X)
    (hXn : Ty.tNull ∉ variants X)
    (hYnd : (variants Y).Nodup) (hYu : Ty.tUndefined ∉ variants Y) :
    resolve (c10schema X Y) "opt" = mkUnion (variants X ++ [Ty.tNull]) ∧
      resolve (c10schema X Y) "f" = mkUnion (variants Y ++ [Ty.tUndefined]) := by
  have hatomX : ∀ u ∈ variants X ++ [Ty.tNull], variants u = [u] := by
    intro u hu
    rcases List.mem_append.mp hu with h | h
    · exact variants_atomic h
    · simp only [List.mem_singleton] at h
      subst h
      rfl
  have hndX : (variants X ++ [Ty.tNull]).Nodup := by
    refine List.Nodup.append hXnd (List.nodup_singleton _) ?_
    intro a ha hb
    simp only [List.mem_singleton] at hb
    subst hb
    exact hXn ha
  have hatomY : ∀ u ∈ variants Y ++ [Ty.tUndefined], variants u = [u] := by
    intro u hu
    rcases List.mem_append.mp hu with h | h
    · exact variants_atomic h
    · simp only [List.mem_singleton] at h
      subst h
      rfl
  have hndY : (variants Y ++ [Ty.tUndefined]).Nodup := by
    refine List.Nodup.append hYnd (List.nodup_singleton _) ?_
    intro a ha hb
    simp only [List.mem_singleton] at hb
    subst hb
    exact hYu ha
  have hVO : variants (mkUnion (variants X ++ [Ty.tNull]))
      = variants X ++ [Ty.tNull] := variants_mkUnion_atoms hatomX hndX
  have hVF : variants (mkUnion (variants Y ++ [Ty.tUndefined]))
      = variants Y ++ [Ty.tUndefined] := variants_mkUnion_atoms hatomY hndY
  have hatomXU : ∀ u ∈ variants X ++ [Ty.tNull, Ty.tUndefined], variants u = [u] := by
    intro u hu
    rcases List.mem_append.mp hu with h | h
    · exact variants_atomic h
    · rcases List.mem_cons.mp h with h1 | h1
      · subst h1; rfl
      · simp only [List.mem_singleton] at h1
        subst h1
        rfl
  have hndXU : (variants X ++ [Ty.tNull, Ty.tUndefined]).Nodup := by
    refine List.Nodup.append hXnd (by simp) ?_
    intro a ha hb
    rcases List.mem_cons.mp hb with h1 | h1
    · subst h1; exact hXn ha
    · simp only [List.mem_singleton] at h1
      subst h1
      exact hXu ha
  constructor
  · -- the optional field: rule 6 (bare key) strips `undefined` only
    show typeAt (c10schema X Y) "opt".data = _
    rw [typeAt_eq]
    unfold typeAtBody
    have hlO : lookupF (Flds.cons "opt".data true
        (mkUnion (variants X ++ [Ty.tNull]))
        (Flds.cons "f".data false (mkUnion (variants Y ++ [Ty.tUndefined]))
          Flds.nil)) "opt".data
        = some (true, mkUnion (variants X ++ [Ty.tNull])) := rfl
    have hex : isExplicitKey (c10schema X Y) "opt".data = false := by
      simp [isExplicitKey, c10schema, variants, explicitOne, hlO]
    have hne : isNestedKey (c10schema X Y) "opt".data = false := by
      simp [isNestedKey, show splitDot "opt".data = none from rfl]
    have har : isArray (c10schema X Y) "opt".data = false := by
      simp [isArray, c10schema, variants, isArrayOne, isArrList,
        show bracketSplit "opt".data = none from rfl]
    have hdk : isDictionaryKey (c10schema X Y) "opt".data = false := by
      simp [isDictionaryKey, c10schema, variants]
    have hidx : indexT (c10schema X Y) "opt".data
        = mkUnion (variants X ++ [Ty.tNull, Ty.tUndefined]) := by
      show mkUnion ([c10schema X Y].map _) = _
      simp only [List.map_cons, List.map_nil]
      have h1 : indexOne (c10schema X Y) "opt".data
          = mkUnion [mkUnion (variants X ++ [Ty.tNull]), Ty.tUndefined] := by
        simp [indexOne, c10schema, hlO]
      rw [h1, mkUnion_singleton_mkUnion]
      refine congrArg buildU (congrArg List.dedup ?_)
      show ([mkUnion (variants X ++ [Ty.tNull]), Ty.tUndefined].flatMap variants)
          = (variants X ++ [Ty.tNull, Ty.tUndefined]).flatMap variants
      rw [flatMap_variants_atoms hatomXU]
      simp only [List.flatMap_cons, List.flatMap_nil, hVO]
      simp [variants]
    have hVI : variants (indexT (c10schema X Y) "opt".data)
        = variants X ++ [Ty.tNull, Ty.tUndefined] := by
      rw [hidx]
      exact variants_mkUnion_atoms hatomXU hndXU
    have hcu : (variants (indexT (c10schema X Y) "opt".data)).contains Ty.tUndefined
        = true := by
      rw [hVI]
      exact containsIffMem.mpr (by simp)
    have hop : isOptionalKey (c10schema X Y) "opt".data = true := by
      unfold isOptionalKey
      rw [show splitDot "opt".data = none from rfl]
      rw [Bool.and_eq_true]
      refine ⟨?_, hcu⟩
      simp [keyofMem, c10schema, variants, keyofOne, hlO]
    rw [hex, hne, har, hdk, hop]
    simp only [isIndexKey, Bool.false_eq_true, if_false, eq_self_iff_true,
      if_true]
    rw [show splitDot "opt".data = none from rfl]
    rw [if_pos hcu]
    unfold excludeUndefined
    rw [hVI]
    refine congrArg mkUnion ?_
    rw [List.filter_append]
    rw [List.filter_eq_self.mpr ?_]
    · simp
    · intro a ha
      simp only [ne_eq, decide_not, Bool.not_eq_eq_eq_not, Bool.not_true,
        decide_eq_false_iff_not]
      intro heq
      exact hXu (heq ▸ ha)
  · -- the required field: rule 1 returns the declared type verbatim
    show typeAt (c10schema X Y) "f".data = _
    rw [typeAt_eq]
    unfold typeAtBody
    have hlF : lookupF (Flds.cons "opt".data true
        (mkUnion (variants X ++ [Ty.tNull]))
        (Flds.cons "f".data false (mkUnion (variants Y ++ [Ty.tUndefined]))
          Flds.nil)) "f".data
        = some (false, mkUnion (variants Y ++ [Ty.tUndefined])) := rfl
    have h1 : explicitOne (c10schema X Y) "f".data = true := by
      simp [explicitOne, c10schema, hlF]
    have hex : isExplicitKey (c10schema X Y) "f".data = true := by
      simp [isExplicitKey, c10schema, variants, explicitOne, hlF]
    rw [if_pos hex]
    show mkUnion ([c10schema X Y].map _) = _
    simp only [List.map_cons, List.map_nil, h1, explicitOne_keyofOne h1,
      Bool.and_self, if_pos]
    have h2 : indexOne (c10schema X Y) "f".data
        = mkUnion (variants Y ++ [Ty.tUndefined]) := by
      simp [indexOne, c10schema, hlF]
    rw [h2, mkUnion_singleton_mkUnion]

theorem clean_variants : ∀ {T u : Ty}, cleanTy T = true → u ∈ variants T →
    cleanTy u = true
  | .union a b, u => by
    simp only [cleanTy, Bool.and_eq_true, variants, List.mem_append]
    rintro ⟨ha, hb⟩ (h | h)
    · exact clean_variants ha h
    · exact clean_variants hb h
  | .tNever, u => by intro h hu; simp [variants] at hu
  | .tStr, u => by intro h hu; simp [variants] at hu; subst hu; exact h
  | .tNum, u => by intro h hu; simp [variants] at hu; subst hu; exact h
  | .tBool, u => by intro h hu; simp [variants] at hu; subst hu; exact h
  | .tNull, u => by intro h hu; simp [variants] at hu; subst hu; exact h
  | .tUndefined, u => by intro h hu; simp [variants] at hu; subst hu; exact h
  | .obj fs, u => by
    intro h hu
    simp only [variants, List.mem_singleton] at hu
    subst hu
    exact h
  | .dict v, u => by intro h hu; simp [cleanTy] at h
  | .arr e, u => by
    intro h hu
    simp only [variants, List.mem_singleton] at hu
    subst hu
    exact h

theorem clean_buildU : ∀ {m : List Ty}, (∀ u ∈ m, cleanTy u = true) →
    cleanTy (buildU m) = true
  | [], _ => rfl
  | [t], h => h t (by simp)
  | t :: t' :: ts, h => by
    show cleanTy (.union t (buildU (t' :: ts))) = true
    simp only [cleanTy, Bool.and_eq_true]
    exact ⟨h t (by simp), clean_buildU fun u hu => h u (by simp [hu])⟩

theorem clean_mkUnion {l : List Ty} (h : ∀ u ∈ l, cleanTy u = true) :
    cleanTy (mkUnion l) = true := by
  refine clean_buildU fun u hu => ?_
  rw [List.mem_dedup, List.mem_flatMap] at hu
  obtain ⟨x, hx, hux⟩ := hu
  exact clean_variants (h x hx) hux

theorem clean_lookup_some : ∀ {fs : Flds} {k : List Char} {o : Bool} {t : Ty},
    cleanFlds fs = true → lookupF fs k = some (o, t) → cleanTy t = true
  | .nil, k, o, t => by intro _ h; simp [lookupF] at h
  | .cons n o' t' r, k, o, t => by
    simp only [cleanFlds, Bool.and_eq_true, lookupF]
    rintro ⟨⟨⟨⟨-, -⟩, -⟩, ht⟩, hr⟩
    by_cases hn : n = k
    · rw [if_pos hn]
      rintro h
      cases h
      exact ht
    · rw [if_neg hn]
      exact clean_lookup_some hr

theorem clean_lookup_dot : ∀ {fs : Flds} {k : List Char},
    cleanFlds fs = true → '.' ∈ k → lookupF fs k = none
  | .nil, k => fun _ _ => rfl
  | .cons n o t r, k => by
    simp only [cleanFlds, Bool.and_eq_true, lookupF]
    rintro ⟨⟨⟨⟨-, hnd⟩, -⟩, -⟩, hr⟩ hk
    rw [if_neg, clean_lookup_dot hr hk]
    rintro rfl
    rw [Bool.not_eq_true', ← Bool.not_eq_true] at hnd
    exact hnd (containsIffMem.mpr hk)

theorem clean_lookup_lb : ∀ {fs : Flds} {k : List Char},
    cleanFlds fs = true → '[' ∈ k → lookupF fs k = none
  | .nil, k => fun _ _ => rfl
  | .cons n o t r, k => by
    simp only [cleanFlds, Bool.and_eq_true, lookupF]
    rintro ⟨⟨⟨⟨-, -⟩, hnb⟩, -⟩, hr⟩ hk
    rw [if_neg, clean_lookup_lb hr hk]
    rintro rfl
    rw [Bool.not_eq_true', ← Bool.not_eq_true] at hnb
    exact hnb (containsIffMem.mpr hk)

theorem clean_lookup_nil : ∀ {fs : Flds},
    cleanFlds fs = true → lookupF fs [] = none
  | .nil => fun _ => rfl
  | .cons n o t r => by
    simp only [cleanFlds, Bool.and_eq_true, lookupF]
    rintro ⟨⟨⟨⟨hne, -⟩, -⟩, -⟩, hr⟩
    rw [if_neg, clean_lookup_nil hr]
    rintro rfl
    simp at hne

theorem clean_indexOne {v : Ty} {k : List Char} (h : cleanTy v = true) :
    cleanTy (indexOne v k) = true := by
  cases v with
  | obj fs =>
    simp only [indexOne]
    cases hl : lookupF fs k with
    | none => rfl
    | some p =>
      obtain ⟨o, t⟩ := p
      have ht : cleanTy t = true := clean_lookup_some h hl
      cases o with
      | false => exact ht
      | true =>
        show cleanTy (mkUnion [t, Ty.tUndefined]) = true
        refine clean_mkUnion fun u hu => ?_
        rcases List.mem_cons.mp hu with h1 | h1
        · subst h1; exact ht
        · simp only [List.mem_singleton] at h1
          subst h1
          rfl
  | dict val => simp [cleanTy] at h
  | union a b => rfl
  | _ => rfl

theorem clean_indexT {T : Ty} {k : List Char} (h : cleanTy T = true) :
    cleanTy (indexT T k) = true := by
  refine clean_mkUnion fun u hu => ?_
  rw [List.mem_map] at hu
  obtain ⟨v, hv, rfl⟩ := hu
  exact clean_indexOne (clean_variants h hv)

theorem clean_excludeUndefined {t : Ty} (h : cleanTy t = true) :
    cleanTy (excludeUndefined t) = true := by
  refine clean_mkUnion fun u hu => ?_
  exact clean_variants h (List.mem_of_mem_filter hu)

theorem clean_nonNull {t : Ty} (h : cleanTy t = true) :
    cleanTy (nonNull t) = true := by
  refine clean_mkUnion fun u hu => ?_
  exact clean_variants h (List.mem_of_mem_filter hu)

theorem clean_normReq : ∀ {fs : Flds}, cleanFlds fs = true →
    cleanFlds (Flds.normReq fs) = true
  | .nil => fun _ => rfl
  | .cons n o t r => by
    simp only [cleanFlds, Bool.and_eq_true, Flds.normReq]
    rintro ⟨⟨⟨⟨hne, hnd⟩, hnb⟩, ht⟩, hr⟩
    exact ⟨⟨⟨⟨hne, hnd⟩, hnb⟩, clean_nonNull ht⟩, clean_normReq hr⟩

theorem clean_normalizeOne {v : Ty} (h : cleanTy v = true) :
    cleanTy (normalizeOne v) = true := by
  cases v with
  | obj fs => exact clean_normReq h
  | dict val => simp [cleanTy] at h
  | arr e => exact h
  | _ => exact h

theorem clean_normMerge {t : Ty} (h : cleanTy t = true) :
    cleanTy (normMerge t) = true := by
  refine clean_mkUnion fun u hu => ?_
  rw [List.mem_map] at hu
  obtain ⟨v, hv, rfl⟩ := hu
  exact clean_normalizeOne (clean_variants h hv)

theorem flatMap_variants_never {l : List Ty} (h : ∀ x ∈ l, x = Ty.tNever) :
    l.flatMap variants = [] := by
  induction l with
  | nil => rfl
  | cons a l ih =>
    simp only [List.flatMap_cons]
    rw [h a (by simp), ih fun x hx => h x (by simp [hx])]
    rfl

theorem indexT_never {T : Ty} {k : List Char}
    (h : ∀ v ∈ variants T, indexOne v k = Ty.tNever) :
    indexT T k = Ty.tNever := by
  have h2 : ∀ x ∈ (variants T).map (fun v => indexOne v k), x = Ty.tNever := by
    intro x hx
    rw [List.mem_map] at hx
    obtain ⟨v, hv, rfl⟩ := hx
    exact h v hv
  show buildU (((variants T).map fun v => indexOne v k).flatMap
    variants).dedup = _
  rw [flatMap_variants_never h2]
  rfl

/-- On a clean schema, a path beginning with the separator (an empty
first segment) is Unresolvable: on an inhabited schema the empty head is
a key of no variant, and on an empty (`never`-like) schema the vacuously
firing nested rule still recurses to `never`. -/
theorem typeAt_dotHead_clean {T : Ty} (hT : cleanTy T = true)
    (s : List Char) : typeAt T ('.' :: s) = Ty.tNever := by
  by_cases hvn : variants T = []
  · exact typeAt_variants_nil hvn _
  rw [typeAt_eq]
  unfold typeAtBody
  have hdot : ∀ v ∈ variants T, explicitOne v ('.' :: s) = false := by
    intro v hv
    have hc := clean_variants hT hv
    cases v <;> simp [explicitOne]
    next fs => rw [clean_lookup_dot hc (by simp)]
  have hex : isExplicitKey T ('.' :: s) = false := by
    simp only [isExplicitKey, List.any_eq_false]
    intro v hv
    simp [hdot v hv]
  have hkm : keyofMem T [] = false := by
    obtain ⟨v, hvm⟩ := List.exists_mem_of_ne_nil _ hvn
    have hc := clean_variants hT hvm
    have hkv : keyofOne v [] = false := by
      cases v <;> simp [keyofOne]
      · next fs => rw [clean_lookup_nil hc]
      · next val => simp [cleanTy] at hc
    cases hb : keyofMem T [] with
    | false => rfl
    | true =>
      exfalso
      simp only [keyofMem, List.all_eq_true] at hb
      have h2 := hb v hvm
      rw [hkv] at h2
      exact absurd h2 (by decide)
  have hne : isNestedKey T ('.' :: s) = false := by
    unfold isNestedKey
    rw [show splitDot ('.' :: s) = some ([], s) from rfl]
    show (keyofMem T [] && extendsObject (indexT T [])) = false
    rw [hkm]
    rfl
  have har : isArray T ('.' :: s) = false := by
    simp only [isArray, List.any_eq_false]
    intro v hv
    have hc := clean_variants hT hv
    simp only [Bool.not_eq_true]
    unfold isArrayOne
    cases v with
    | arr e => simp [isArrList, rootParse]
    | dict val => simp [cleanTy] at hc
    | obj fs =>
      simp only [isArrList]
      cases hbs : bracketSplit ('.' :: s) with
      | none => rfl
      | some p =>
        obtain ⟨base, mid, rest⟩ := p
        obtain ⟨heq, hlb, -⟩ := bracketSplit_some hbs
        have hbase : '.' ∈ base := by
          cases base with
          | nil => simp at heq
          | cons c cs =>
            have : c = '.' := by
              have := congrArg (List.head? ·) heq
              simpa using this.symm
            simp [this]
        simp only [keyofOne]
        rw [clean_lookup_dot hc hbase]
        simp
    | _ =>
      simp only [isArrList]
      cases hbs : bracketSplit ('.' :: s) with
      | none => rfl
      | some p => simp [keyofOne]
  have hdk : isDictionaryKey T ('.' :: s) = false := by
    simp only [isDictionaryKey, List.any_eq_false]
    intro v hv
    have hc := clean_variants hT hv
    cases v <;> simp
    next val => simp [cleanTy] at hc
  have honil : ∀ v ∈ variants T, indexOne v [] = Ty.tNever := by
    intro v hv
    have hc := clean_variants hT hv
    cases v <;> simp [indexOne]
    · next fs => rw [clean_lookup_nil hc]
    · next val => simp [cleanTy] at hc
  have hop : isOptionalKey T ('.' :: s) = false := by
    have hred : isOptionalKey T ('.' :: s)
        = (keyofMem T [] && (variants (indexT T [])).contains Ty.tUndefined
            && extendsObject (excludeUndefined (indexT T []))) := rfl
    rw [hred, indexT_never honil]
    simp [variants]
  rw [hex, hne, har, hdk, hop]
  simp [isIndexKey]

/-- On a clean schema, the path `a..b` (empty middle segment) is
Unresolvable: the segment `a` may start a nested or an optional descent,
but the tail then begins with the separator and resolves to `never` by
`typeAt_dotHead_clean`. -/
theorem typeAt_doubleDot_clean {T : Ty} (hT : cleanTy T = true) :
    typeAt T ['a', '.', '.', 'b'] = Ty.tNever := by
  rw [typeAt_eq]
  unfold typeAtBody
  have hl : ∀ v ∈ variants T, explicitOne v ['a', '.', '.', 'b'] = false := by
    intro v hv
    have hc := clean_variants hT hv
    cases v <;> simp [explicitOne]
    next fs => rw [clean_lookup_dot hc (by simp)]
  have hex : isExplicitKey T ['a', '.', '.', 'b'] = false := by
    simp only [isExplicitKey, List.any_eq_false]
    intro v hv
    simp [hl v hv]
  have har : isArray T ['a', '.', '.', 'b'] = false := by
    simp only [isArray, List.any_eq_false]
    intro v hv
    have hc := clean_variants hT hv
    simp only [Bool.not_eq_true]
    cases v with
    | dict val => simp [cleanTy] at hc
    | _ => rfl
  have hdk : isDictionaryKey T ['a', '.', '.', 'b'] = false := by
    simp only [isDictionaryKey, List.any_eq_false]
    intro v hv
    have hc := clean_variants hT hv
    cases v <;> simp
    next val => simp [cleanTy] at hc
  rw [hex, har, hdk]
  simp only [isIndexKey, Bool.false_eq_true, if_false]
  split
  · show (if (keyofMem T ['a'] && extendsObject (indexT T ['a'])) = true then
        typeAt (normMerge (indexT T ['a'])) ['.', 'b'] else Ty.tNever)
      = Ty.tNever
    split
    · exact typeAt_dotHead_clean (clean_normMerge (clean_indexT hT)) ['b']
    · rfl
  · split
    · show (if (variants (indexT T ['a'])).contains Ty.tUndefined = true then
          typeAt (excludeUndefined (indexT T ['a'])) ['.', 'b'] else Ty.tNever)
        = Ty.tNever
      split
      · exact typeAt_dotHead_clean (clean_excludeUndefined (clean_indexT hT)) ['b']
      · rfl
    · rfl

/-- On a clean schema, the path `items[` (an opening bracket that is
never closed) is Unresolvable: the bracket blocks the key lookups and no
array or optional rule fires. -/
theorem typeAt_openBracket_clean {T : Ty} (hT : cleanTy T = true) :
    typeAt T ['i', 't', 'e', 'm', 's', '['] = Ty.tNever := by
  rw [typeAt_eq]
  unfold typeAtBody
  have hl : ∀ v ∈ variants T,
      explicitOne v ['i', 't', 'e', 'm', 's', '['] = false := by
    intro v hv
    have hc := clean_variants hT hv
    cases v <;> simp [explicitOne]
    next fs => rw [clean_lookup_lb hc (by simp)]
  have hex : isExplicitKey T ['i', 't', 'e', 'm', 's', '['] = false := by
    simp only [isExplicitKey, List.any_eq_false]
    intro v hv
    simp [hl v hv]
  have hne : isNestedKey T ['i', 't', 'e', 'm', 's', '['] = false := rfl
  have har : isArray T ['i', 't', 'e', 'm', 's', '['] = false := by
    simp only [isArray, List.any_eq_false]
    intro v hv
    have hc := clean_variants hT hv
    simp only [Bool.not_eq_true]
    cases v with
    | dict val => simp [cleanTy] at hc
    | _ => rfl
  have hdk : isDictionaryKey T ['i', 't', 'e', 'm', 's', '['] = false := by
    simp only [isDictionaryKey, List.any_eq_false]
    intro v hv
    have hc := clean_variants hT hv
    cases v <;> simp
    next val => simp [cleanTy] at hc
  have hob : ∀ v ∈ variants T,
      indexOne v ['i', 't', 'e', 'm', 's', '['] = Ty.tNever := by
    intro v hv
    have hc := clean_variants hT hv
    cases v <;> simp [indexOne]
    · next fs => rw [clean_lookup_lb hc (by simp)]
    · next val => simp [cleanTy] at hc
  have hop : isOptionalKey T ['i', 't', 'e', 'm', 's', '['] = false := by
    have hred : isOptionalKey T ['i', 't', 'e', 'm', 's', '[']
        = (keyofMem T ['i', 't', 'e', 'm', 's', '[']
            && (variants (indexT T ['i', 't', 'e', 'm', 's', '['])).contains
              Ty.tUndefined) := rfl
    rw [hred, indexT_never hob]
    simp [variants]
  rw [hex, hne, har, hdk, hop]
  simp [isIndexKey]

/-- C9 (amended): on schemas whose field names are nonempty and free of
the path metacharacters `.` and `[`, and which contain no dictionaries
(a dictionary accepts any bare string as a key by design), the spec's
malformed-path examples — a leading separator, an empty middle segment,
and an unterminated bracket — all resolve to Unresolvable. -/
theorem c9_malformed_amended (T : Ty) (h : cleanTy T = true) :
    resolve T ".a" = Ty.tNever ∧ resolve T "a..b" = Ty.tNever ∧
      resolve T "items[" = Ty.tNever :=
  ⟨typeAt_dotHead_clean h ['a'], typeAt_doubleDot_clean h,
    typeAt_openBracket_clean h⟩

/-- Witness for C9 (amended) on the concrete clean schema
`{items: string[]; a: {b: number}}`. -/
theorem c9_malformed_witness :
    cleanTy (objL [("items", false, Ty.arr Ty.tStr),
        ("a", false, objL [("b", false, Ty.tNum)])]) = true ∧
      (resolve (objL [("items", false, Ty.arr Ty.tStr),
          ("a", false, objL [("b", false, Ty.tNum)])]) ".a" = Ty.tNever ∧
        resolve (objL [("items", false, Ty.arr Ty.tStr),
            ("a", false, objL [("b", false, Ty.tNum)])]) "a..b" = Ty.tNever ∧
        resolve (objL [("items", false, Ty.arr Ty.tStr),
            ("a", false, objL [("b", false, Ty.tNum)])]) "items[" = Ty.tNever) :=
  ⟨by decide, c9_malformed_amended _ (by decide)⟩

/-! ### C4 — depth bound for the self-referential schema -/

theorem pathsO_zero (T : Ty) : pathsO 0 T = [] := by
  rw [pathsO_eq]
  rfl

theorem fieldPB_str (rec : Nat → Ty → List Pat) (d : Nat) (kp : Pat) :
    fieldPB rec d kp Ty.tStr = [kp] := rfl

theorem fieldPB_obj (rec : Nat → Ty → List Pat) (d : Nat) (kp : Pat)
    (fs : Flds) :
    fieldPB rec d kp (Ty.obj fs)
      = [kp] ++ (rec (d - 1) (Ty.obj fs)).map (fun p => kp ++ PTok.ch '.' :: p) :=
  rfl

theorem pathsO_circ_succ (d n : Nat) :
    pathsO (d + 1) (circ (n + 1))
      = [litP "name".data, litP "child".data]
        ++ (pathsO d (circ n)).map
            (fun p => litP "child".data ++ PTok.ch '.' :: p) := by
  obtain ⟨fs', hfs⟩ : ∃ fs', circ n = Ty.obj fs' := by
    cases n
    · exact ⟨_, rfl⟩
    · exact ⟨_, rfl⟩
  rw [pathsO_eq]
  show pathsBody pathsO (d + 1)
      (Ty.obj (Flds.cons "name".data false Ty.tStr
        (Flds.cons "child".data true (circ n) Flds.nil))) = _
  unfold pathsBody
  rw [if_neg (Nat.succ_ne_zero d)]
  simp only [variants, List.flatMap_cons, List.flatMap_nil, List.append_nil,
    extendsObjectOne, isTerminalOne, Bool.not_false, Bool.and_self, if_true]
  simp only [Flds.toList, List.flatMap_cons, List.flatMap_nil]
  rw [show fieldPB pathsO (d + 1) (litP "name".data) Ty.tStr
      = [litP "name".data] from rfl]
  rw [hfs, fieldPB_obj, ← hfs]
  simp [Nat.add_sub_cancel]

theorem pathsO_circ_stable :
    ∀ (d n m : Nat), d ≤ n → d ≤ m → pathsO d (circ n) = pathsO d (circ m)
  | 0, n, m, _, _ => by rw [pathsO_zero, pathsO_zero]
  | d + 1, n, m, hn, hm => by
    obtain ⟨n', rfl⟩ : ∃ n', n = n' + 1 := ⟨n - 1, by omega⟩
    obtain ⟨m', rfl⟩ : ∃ m', m = m' + 1 := ⟨m - 1, by omega⟩
    rw [pathsO_circ_succ, pathsO_circ_succ,
      pathsO_circ_stable d n' m' (by omega) (by omega)]

/-- C4: for every unrolling (of depth at least 5) of the self-referential
schema `T = {name: string; child?: T}` and the default maximum depth 5,
the enumeration is exactly the ten paths `name, child, child.name, …,
child.child.child.child.child` — five levels of `child` and nothing
deeper, the budget decreasing by one at each object-field descent. -/
theorem c4_depth_bound (k : Nat) :
    (pathsOf (circ (5 + k))).toFinset =
      ({patS "name", patS "child", patS "child.name", patS "child.child",
        patS "child.child.name", patS "child.child.child",
        patS "child.child.child.name", patS "child.child.child.child",
        patS "child.child.child.child.name",
        patS "child.child.child.child.child"} : Finset Pat) := by
  have hstab : pathsO MaxDepth (circ (5 + k)) = pathsO MaxDepth (circ 5) :=
    pathsO_circ_stable MaxDepth (5 + k) 5 (by simp [MaxDepth]) (le_refl _)
  show (pathsO MaxDepth (circ (5 + k))).toFinset = _
  rw [hstab]
  decide

/-- Witness for `c10_absence_stripping_amended` at `X = string`,
`Y = number`. -/
theorem c10_absence_stripping_witness :
    resolve (c10schema Ty.tStr Ty.tNum) "opt"
        = mkUnion (variants Ty.tStr ++ [Ty.tNull]) ∧
      resolve (c10schema Ty.tStr Ty.tNum) "f"
        = mkUnion (variants Ty.tNum ++ [Ty.tUndefined]) :=
  c10_absence_stripping_amended Ty.tStr Ty.tNum (by decide) (by decide)
    (by decide) (by decide) (by decide)

/-! ### C1 (amended) — pattern instantiation and the round trip on
well-behaved schemas -/

theorem natCharsAux_append : ∀ (fuel n : Nat) (acc : List Char),
    natCharsAux fuel n acc = natCharsAux fuel n [] ++ acc
  | 0, _, _ => rfl
  | fuel + 1, n, acc => by
    simp only [natCharsAux]
    by_cases h : n < 10
    · simp [h]
    · rw [if_neg h, if_neg h,
        natCharsAux_append fuel (n / 10) (digitChar (n % 10) :: acc),
        natCharsAux_append fuel (n / 10) [digitChar (n % 10)]]
      simp

theorem natCharsAux_fuel : ∀ {f₁ f₂ n : Nat}, n < f₁ → n < f₂ →
    natCharsAux f₁ n [] = natCharsAux f₂ n []
  | 0, _, _, h₁, _ => absurd h₁ (by omega)
  | _ + 1, 0, _, _, h₂ => absurd h₂ (by omega)
  | f₁ + 1, f₂ + 1, n, h₁, h₂ => by
    simp only [natCharsAux]
    by_cases h : n < 10
    · simp [h]
    · rw [if_neg h, if_neg h]
      have hdiv : n / 10 < n := Nat.div_lt_self (by omega) (by omega)
      rw [natCharsAux_append f₁ (n / 10) [digitChar (n % 10)],
        natCharsAux_append f₂ (n / 10) [digitChar (n % 10)]]
      exact congrArg (fun l => l ++ [digitChar (n % 10)])
        (@natCharsAux_fuel f₁ f₂ (n / 10) (by omega) (by omega))

/-- The defining recurrence of the canonical numeral. -/
theorem natChars_rec (n : Nat) : natChars n =
    if n < 10 then [digitChar n]
    else natChars (n / 10) ++ [digitChar (n % 10)] := by
  show natCharsAux (n + 1) n [] = _
  simp only [natCharsAux]
  by_cases h : n < 10
  · simp [h]
  · rw [if_neg h, if_neg h,
      natCharsAux_append n (n / 10) [digitChar (n % 10)]]
    have hdiv : n / 10 < n := Nat.div_lt_self (by omega) (by omega)
    rw [show natCharsAux n (n / 10) [] = natChars (n / 10) from
      natCharsAux_fuel (by omega) (by omega)]

theorem digitChar_isDigit : ∀ m : Nat, (digitChar m).isDigit = true
  | 0 => rfl
  | 1 => rfl
  | 2 => rfl
  | 3 => rfl
  | 4 => rfl
  | 5 => rfl
  | 6 => rfl
  | 7 => rfl
  | 8 => rfl
  | _ + 9 => rfl

theorem digitChar_ne_zero : ∀ m : Nat, m ≠ 0 → digitChar m ≠ '0'
  | 0 => fun h => absurd rfl h
  | 1 => fun _ => by decide
  | 2 => fun _ => by decide
  | 3 => fun _ => by decide
  | 4 => fun _ => by decide
  | 5 => fun _ => by decide
  | 6 => fun _ => by decide
  | 7 => fun _ => by decide
  | 8 => fun _ => by decide
  | _ + 9 => fun _ => show ('9' : Char) ≠ '0' by decide

theorem natChars_digits (n : Nat) : ∀ c ∈ natChars n, c.isDigit = true := by
  induction n using Nat.strong_induction_on with
  | _ n ih =>
    rw [natChars_rec]
    by_cases h : n < 10
    · rw [if_pos h]
      intro c hc
      rw [List.mem_singleton] at hc
      subst hc
      exact digitChar_isDigit n
    · rw [if_neg h]
      intro c hc
      rcases List.mem_append.mp hc with h1 | h1
      · exact ih (n / 10) (Nat.div_lt_self (by omega) (by omega)) c h1
      · rw [List.mem_singleton] at h1
        subst h1
        exact digitChar_isDigit (n % 10)

theorem natChars_no_dot {n : Nat} : '.' ∉ natChars n :=
  fun h => absurd (natChars_digits n '.' h) (by decide)

theorem natChars_no_lb {n : Nat} : '[' ∉ natChars n :=
  fun h => absurd (natChars_digits n '[' h) (by decide)

theorem natChars_no_rb {n : Nat} : ']' ∉ natChars n :=
  fun h => absurd (natChars_digits n ']' h) (by decide)

theorem natChars_head (n : Nat) (h : n ≠ 0) :
    ∃ c s', natChars n = c :: s' ∧ c ≠ '0' := by
  induction n using Nat.strong_induction_on with
  | _ n ih =>
    rw [natChars_rec]
    by_cases h10 : n < 10
    · rw [if_pos h10]
      exact ⟨digitChar n, [], rfl, digitChar_ne_zero n h⟩
    · rw [if_neg h10]
      obtain ⟨c, s', heq, hne⟩ :=
        ih (n / 10) (Nat.div_lt_self (by omega) (by omega))
          (by
            have : 1 ≤ n / 10 := (Nat.one_le_div_iff (by omega)).mpr (by omega)
            omega)
      exact ⟨c, s' ++ [digitChar (n % 10)], by rw [heq]; rfl, hne⟩

/-- The canonical numeral satisfies the `` `${number}` `` index test. -/
theorem isNatStr_natChars (n : Nat) : isNatStr (natChars n) = true := by
  by_cases h : n = 0
  · subst h
    decide
  · obtain ⟨c, s', heq, hne⟩ := natChars_head n h
    simp only [isNatStr, Bool.and_eq_true, Bool.or_eq_true]
    refine ⟨⟨?_, ?_⟩, Or.inr ?_⟩
    · rw [heq]
      simp
    · rw [List.all_eq_true]
      intro c' hc'
      exact natChars_digits n c' hc'
    · rw [heq]
      simp [hne]

theorem Inst_nil_inv {s : List Char} (h : Inst [] s) : s = [] := by
  cases h
  rfl

theorem Inst_litP_append : ∀ {a : List Char} {p : Pat} {s : List Char},
    Inst (litP a ++ p) s → ∃ s', s = a ++ s' ∧ Inst p s'
  | [], p, s => fun h => ⟨s, rfl, h⟩
  | c :: a, p, s => fun h => by
    have h' : Inst (PTok.ch c :: (litP a ++ p)) s := h
    cases h' with
    | ch h2 =>
      obtain ⟨s', rfl, hi⟩ := Inst_litP_append h2
      exact ⟨s', rfl, hi⟩

theorem Inst_litP_eq {a s : List Char} (h : Inst (litP a) s) : s = a := by
  have h' : Inst (litP a ++ []) s := by simpa using h
  obtain ⟨s', rfl, hi⟩ := Inst_litP_append h'
  rw [Inst_nil_inv hi, List.append_nil]

theorem Inst_brP_append {p : Pat} {s : List Char} (h : Inst (brP ++ p) s) :
    ∃ n s', s = '[' :: (natChars n ++ ']' :: s') ∧ Inst p s' := by
  have h' : Inst (PTok.ch '[' :: PTok.nhole :: PTok.ch ']' :: p) s := h
  cases h' with
  | ch h1 =>
    cases h1 with
    | nat n h2 =>
      cases h2 with
      | ch h3 => exact ⟨n, _, rfl, h3⟩

theorem Inst_litP_intro : ∀ (a : List Char) {p : Pat} {s : List Char},
    Inst p s → Inst (litP a ++ p) (a ++ s)
  | [], _, _, h => h
  | _ :: a, _, _, h => Inst.ch (Inst_litP_intro a h)

theorem Inst_litP_self : ∀ (a : List Char), Inst (litP a) a
  | [] => Inst.nil
  | _ :: a => Inst.ch (Inst_litP_self a)

/-- The first separator of a concatenation with a separator-free head. -/
theorem splitDot_none {s : List Char} (h : '.' ∉ s) : splitDot s = none :=
  splitOn_none.mpr h

theorem splitDot_head {a : List Char} (b : List Char) (h : '.' ∉ a) :
    splitDot (a ++ '.' :: b) = some (a, b) :=
  splitOn_append b h

theorem bracketSplit_head {a m : List Char} (r : List Char)
    (ha : '[' ∉ a) (hm : ']' ∉ m) :
    bracketSplit (a ++ '[' :: (m ++ ']' :: r)) = some (a, m, r) := by
  unfold bracketSplit
  rw [splitOn_append (m ++ ']' :: r) ha]
  show (splitOn ']' (m ++ ']' :: r)).map (fun q => (a, q.1, q.2)) = _
  rw [splitOn_append r hm]
  rfl

theorem bracketSplit_none {s : List Char} (h : '[' ∉ s) :
    bracketSplit s = none := by
  unfold bracketSplit
  rw [splitOn_none.mpr h]
  rfl

theorem rootParse_head {m : List Char} (r : List Char) (hm : ']' ∉ m) :
    rootParse ('[' :: (m ++ ']' :: r)) = some (m, r) := by
  simp only [rootParse, if_pos rfl]
  exact splitOn_append r hm

/-- If a string decomposes both around an `x` with `y`-free prefix and
around a `y`, and `y` does not occur before the `x`, then the `x` comes
first: it lies in the `y`-decomposition's prefix. -/
theorem first_mem : ∀ (a c : List Char) {x y : Char} {b d : List Char},
    a ++ x :: b = c ++ y :: d → y ∉ a → x ≠ y → x ∈ c
  | [], c, x, y, b, d => by
    intro heq _ hxy
    cases c with
    | nil =>
      simp only [List.nil_append, List.cons.injEq] at heq
      exact absurd heq.1 hxy
    | cons e c' =>
      simp only [List.nil_append, List.cons_append, List.cons.injEq] at heq
      rw [heq.1]
      simp
  | h :: a, c, x, y, b, d => by
    intro heq hy hxy
    cases c with
    | nil =>
      simp only [List.cons_append, List.nil_append, List.cons.injEq] at heq
      exact absurd (by simp [heq.1]) hy
    | cons h' c' =>
      simp only [List.cons_append, List.cons.injEq] at heq
      have := first_mem a c' heq.2 (fun hm => hy (by simp [hm])) hxy
      simp [this]

mutual
theorem good_clean : ∀ {t : Ty}, goodTy t = true → cleanTy t = true
  | .obj _ => fun h => good_clean_flds h
  | .arr e => fun h => @good_clean e h
  | .tStr => fun _ => rfl
  | .tNum => fun _ => rfl
  | .tBool => fun _ => rfl
  | .tNull => fun h => by simp [goodTy] at h
  | .tUndefined => fun h => by simp [goodTy] at h
  | .tNever => fun h => by simp [goodTy] at h
  | .dict _ => fun h => by simp [goodTy] at h
  | .union _ _ => fun h => by simp [goodTy] at h

theorem good_clean_flds : ∀ {fs : Flds}, goodFlds fs = true → cleanFlds fs = true
  | .nil => fun _ => rfl
  | .cons n o t r => by
    simp only [goodFlds, cleanFlds, Bool.and_eq_true]
    rintro ⟨⟨⟨⟨⟨h1, h2⟩, h3⟩, hdup⟩, hgt⟩, hgr⟩
    exact ⟨⟨⟨⟨h1, h2⟩, h3⟩, good_clean hgt⟩, good_clean_flds hgr⟩
end

theorem good_variants_self {t : Ty} (h : goodTy t = true) : variants t = [t] := by
  cases t <;> first | rfl | simp [goodTy] at h

theorem good_atom_ne {t : Ty} (h : goodTy t = true) :
    t ≠ Ty.tNever ∧ t ≠ Ty.tUndefined ∧ t ≠ Ty.tNull := by
  cases t <;> simp_all [goodTy]

theorem mkUnion_single_self {t : Ty} (h : variants t = [t]) :
    mkUnion [t] = t := by
  unfold mkUnion
  rw [show [t].flatMap variants = [t] from by simp [h]]
  rw [show ([t] : List Ty).dedup = [t] from by
    rw [List.dedup_cons_of_not_mem (by simp), List.dedup_nil]]
  rfl

theorem good_mkUnion_single {t : Ty} (h : goodTy t = true) : mkUnion [t] = t :=
  mkUnion_single_self (good_variants_self h)

theorem good_nonNull {t : Ty} (h : goodTy t = true) : nonNull t = t := by
  unfold nonNull
  rw [good_variants_self h]
  obtain ⟨-, h2, h3⟩ := good_atom_ne h
  rw [show [t].filter (fun u => u ≠ Ty.tNull && u ≠ Ty.tUndefined) = [t] from by
    simp [List.filter, h2, h3]]
  exact good_mkUnion_single h

theorem good_excludeUndefined {t : Ty} (h : goodTy t = true) :
    excludeUndefined t = t := by
  unfold excludeUndefined
  rw [good_variants_self h]
  obtain ⟨-, h2, -⟩ := good_atom_ne h
  rw [show [t].filter (fun u => u ≠ Ty.tUndefined) = [t] from by
    simp [List.filter, h2]]
  exact good_mkUnion_single h

theorem good_lookup_good : ∀ {fs : Flds} {k : List Char} {o : Bool} {t : Ty},
    goodFlds fs = true → lookupF fs k = some (o, t) → goodTy t = true
  | .nil, k, o, t => by intro _ hl; simp [lookupF] at hl
  | .cons n o' t' r, k, o, t => by
    simp only [goodFlds, Bool.and_eq_true, lookupF]
    rintro ⟨⟨⟨⟨⟨-, -⟩, -⟩, -⟩, hgt⟩, hgr⟩ hl
    by_cases hn : n = k
    · rw [if_pos hn] at hl
      cases hl
      exact hgt
    · rw [if_neg hn] at hl
      exact good_lookup_good hgr hl

theorem mem_lookup_isSome : ∀ {fs : Flds} {n : List Char} {o : Bool} {t : Ty},
    (n, o, t) ∈ Flds.toList fs → (lookupF fs n).isSome = true
  | .nil, n, o, t => by simp [Flds.toList]
  | .cons n' o' t' r, n, o, t => by
    simp only [Flds.toList, List.mem_cons]
    rintro (heq | hm)
    · cases heq
      simp [lookupF]
    · simp only [lookupF]
      by_cases hn : n' = n
      · simp [hn]
      · rw [if_neg hn]
        exact mem_lookup_isSome hm

theorem good_lookup_mem : ∀ {fs : Flds} {n : List Char} {o : Bool} {t : Ty},
    goodFlds fs = true → (n, o, t) ∈ Flds.toList fs →
      lookupF fs n = some (o, t)
  | .nil, n, o, t => by intro _ hm; simp [Flds.toList] at hm
  | .cons n' o' t' r, n, o, t => by
    simp only [goodFlds, Bool.and_eq_true, Flds.toList, List.mem_cons]
    rintro ⟨⟨⟨⟨⟨-, -⟩, -⟩, hdup⟩, -⟩, hgr⟩ (heq | hm)
    · cases heq
      simp [lookupF]
    · simp only [lookupF]
      by_cases hn : n' = n
      · subst hn
        exfalso
        have hs := mem_lookup_isSome hm
        rw [Option.isNone_iff_eq_none] at hdup
        rw [hdup] at hs
        simp at hs
      · rw [if_neg hn]
        exact good_lookup_mem hgr hm

theorem goodFlds_mem : ∀ {fs : Flds} {n : List Char} {o : Bool} {t : Ty},
    goodFlds fs = true → (n, o, t) ∈ Flds.toList fs →
      '.' ∉ n ∧ '[' ∉ n ∧ goodTy t = true
  | .nil, n, o, t => by intro _ hm; simp [Flds.toList] at hm
  | .cons n' o' t' r, n, o, t => by
    simp only [goodFlds, Bool.and_eq_true, Flds.toList, List.mem_cons]
    rintro ⟨⟨⟨⟨⟨-, h2⟩, h3⟩, -⟩, hgt⟩, hgr⟩ (heq | hm)
    · cases heq
      refine ⟨?_, ?_, hgt⟩
      · intro hmem
        rw [← containsIffMem] at hmem
        rw [hmem] at h2
        simp at h2
      · intro hmem
        rw [← containsIffMem] at hmem
        rw [hmem] at h3
        simp at h3
    · exact goodFlds_mem hgr hm

theorem good_normReq_toList : ∀ {fs : Flds}, goodFlds fs = true →
    Flds.toList (Flds.normReq fs)
      = (Flds.toList fs).map (fun f => (f.1, false, f.2.2))
  | .nil => fun _ => rfl
  | .cons n o t r => by
    simp only [goodFlds, Bool.and_eq_true]
    rintro ⟨⟨⟨⟨⟨-, -⟩, -⟩, -⟩, hgt⟩, hgr⟩
    simp only [Flds.normReq, Flds.toList, List.map_cons]
    rw [good_nonNull hgt, good_normReq_toList hgr]

theorem good_normReq_lookup : ∀ {fs : Flds} (k : List Char),
    goodFlds fs = true →
      lookupF (Flds.normReq fs) k = (lookupF fs k).map (fun q => (false, q.2))
  | .nil, k => fun _ => rfl
  | .cons n o t r, k => by
    simp only [goodFlds, Bool.and_eq_true]
    rintro ⟨⟨⟨⟨⟨-, -⟩, -⟩, -⟩, hgt⟩, hgr⟩
    simp only [Flds.normReq, lookupF]
    by_cases hn : n = k
    · simp [hn, good_nonNull hgt]
    · rw [if_neg hn, if_neg hn]
      exact good_normReq_lookup k hgr

theorem good_normReq_good : ∀ {fs : Flds}, goodFlds fs = true →
    goodFlds (Flds.normReq fs) = true
  | .nil => fun _ => rfl
  | .cons n o t r => by
    simp only [goodFlds, Bool.and_eq_true]
    rintro ⟨⟨⟨⟨⟨h1, h2⟩, h3⟩, hdup⟩, hgt⟩, hgr⟩
    refine ⟨⟨⟨⟨⟨h1, h2⟩, h3⟩, ?_⟩, ?_⟩, good_normReq_good hgr⟩
    · rw [good_normReq_lookup n hgr]
      rw [Option.isNone_iff_eq_none] at hdup ⊢
      rw [hdup]
      rfl
    · rw [good_nonNull hgt]
      exact hgt

theorem good_normReq_size : ∀ {fs : Flds}, goodFlds fs = true →
    fldsSize (Flds.normReq fs) = fldsSize fs
  | .nil => fun _ => rfl
  | .cons n o t r => by
    simp only [goodFlds, Bool.and_eq_true]
    rintro ⟨⟨⟨⟨⟨-, -⟩, -⟩, -⟩, hgt⟩, hgr⟩
    simp only [Flds.normReq, fldsSize]
    rw [good_nonNull hgt, good_normReq_size hgr]

theorem good_paths_normReq {fs : Flds} (h : goodFlds fs = true) (d : Nat) :
    pathsO d (Ty.obj (Flds.normReq fs)) = pathsO d (Ty.obj fs) := by
  rw [pathsO_eq, pathsO_eq]
  unfold pathsBody
  by_cases hd : d = 0
  · simp [hd]
  · rw [if_neg hd, if_neg hd]
    simp only [variants, List.flatMap_cons, List.flatMap_nil, List.append_nil,
      extendsObjectOne, isTerminalOne, Bool.not_false, Bool.and_self, if_true]
    rw [good_normReq_toList h, List.flatMap_map]

theorem isExplicitKey_obj (fs : Flds) (k : List Char) :
    isExplicitKey (Ty.obj fs) k = explicitOne (Ty.obj fs) k := by
  simp [isExplicitKey, variants]

theorem isArray_obj (fs : Flds) (k : List Char) :
    isArray (Ty.obj fs) k = isArrayOne (Ty.obj fs) k := by
  simp [isArray, variants]

theorem isDictionaryKey_obj (fs : Flds) (k : List Char) :
    isDictionaryKey (Ty.obj fs) k = false := by
  simp [isDictionaryKey, variants]

theorem keyofMem_obj (fs : Flds) (k : List Char) :
    keyofMem (Ty.obj fs) k = (lookupF fs k).isSome := by
  simp [keyofMem, variants, keyofOne]

theorem indexT_obj (fs : Flds) (k : List Char) :
    indexT (Ty.obj fs) k = mkUnion [indexOne (Ty.obj fs) k] := by
  simp [indexT, variants]

theorem indexOne_obj_req {fs : Flds} {k : List Char} {t : Ty}
    (h : lookupF fs k = some (false, t)) : indexOne (Ty.obj fs) k = t := by
  simp [indexOne, h]

theorem indexOne_obj_opt {fs : Flds} {k : List Char} {t : Ty}
    (h : lookupF fs k = some (true, t)) :
    indexOne (Ty.obj fs) k = mkUnion [t, Ty.tUndefined] := by
  simp [indexOne, h]

theorem variants_mkUnion_one (x : Ty) :
    variants (mkUnion [x]) = (variants x).dedup := by
  rw [variants_mkUnion]
  simp

theorem dedup_ne_nil {α : Type _} [DecidableEq α] {l : List α} (h : l ≠ []) :
    l.dedup ≠ [] := fun hc => h ((List.dedup_eq_nil l).mp hc)

theorem good_undefU_variants {t : Ty} (h : goodTy t = true) :
    variants (mkUnion [t, Ty.tUndefined]) = [t, Ty.tUndefined] := by
  rw [variants_mkUnion]
  rw [show [t, Ty.tUndefined].flatMap variants = [t, Ty.tUndefined] from by
    simp [good_variants_self h, variants]]
  have hnd : ([t, Ty.tUndefined] : List Ty).Nodup := by
    simp [List.nodup_cons, (good_atom_ne h).2.1]
  rw [List.dedup_eq_self.mpr hnd]

theorem good_excludeU {t : Ty} (h : goodTy t = true) :
    excludeUndefined (mkUnion [t, Ty.tUndefined]) = t := by
  unfold excludeUndefined
  rw [good_undefU_variants h]
  rw [show [t, Ty.tUndefined].filter (fun u => u ≠ Ty.tUndefined) = [t] from by
    simp [List.filter, (good_atom_ne h).2.1]]
  exact good_mkUnion_single h

theorem good_nonNullU {t : Ty} (h : goodTy t = true) :
    nonNull (mkUnion [t, Ty.tUndefined]) = t := by
  unfold nonNull
  rw [good_undefU_variants h]
  rw [show [t, Ty.tUndefined].filter
      (fun u => u ≠ Ty.tNull && u ≠ Ty.tUndefined) = [t] from by
    simp [List.filter, (good_atom_ne h).2.1, (good_atom_ne h).2.2]]
  exact good_mkUnion_single h

theorem normalizeOne_atomic {t : Ty} (h : goodTy t = true) :
    variants (normalizeOne t) = [normalizeOne t] := by
  cases t <;> simp_all [goodTy, normalizeOne, variants]

theorem good_normMerge_variants {t : Ty} (h : goodTy t = true) :
    variants (normMerge t) = [normalizeOne t] := by
  unfold normMerge normalize merged
  rw [good_variants_self h, variants_mkUnion]
  rw [show ([t].map normalizeOne).flatMap variants = [normalizeOne t] from by
    simp [normalizeOne_atomic h]]
  exact List.dedup_eq_self.mpr (List.nodup_singleton _)

theorem normMerge_obj (fs : Flds) :
    normMerge (Ty.obj fs) = Ty.obj (Flds.normReq fs) := by
  unfold normMerge normalize merged
  rw [show variants (Ty.obj fs) = [Ty.obj fs] from rfl]
  show mkUnion [Ty.obj (Flds.normReq fs)] = _
  exact mkUnion_single_self rfl

theorem normMerge_arr (e : Ty) : normMerge (Ty.arr e) = Ty.arr e := by
  unfold normMerge normalize merged
  rw [show variants (Ty.arr e) = [Ty.arr e] from rfl]
  show mkUnion [Ty.arr e] = _
  exact mkUnion_single_self rfl

theorem good_arrElemTy {e : Ty} (h : goodTy e = true) :
    arrElemTy (Ty.arr e) = e := by
  unfold arrElemTy
  rw [show variants (Ty.arr e) = [Ty.arr e] from rfl]
  show mkUnion [e] = e
  exact good_mkUnion_single h

/-- Resolution of a bare, grammar-clean declared key on a good object
schema: rule 1 for a required field, rule 6 (bare branch) for an optional
one; either way the result is inhabited (not `never`). -/
theorem good_bare_resolve {fs : Flds} {name : List Char} {o : Bool} {t : Ty}
    (hl : lookupF fs name = some (o, t)) (hgt : goodTy t = true)
    (hnd : '.' ∉ name) (hnb : '[' ∉ name) :
    variants (typeAt (Ty.obj fs) name) ≠ [] := by
  cases o with
  | false =>
    have hexp : explicitOne (Ty.obj fs) name = true := by
      simp [explicitOne, hl]
    have hatom : variants (Ty.obj fs) = [Ty.obj fs] := rfl
    rw [typeAt_atom_explicit hatom hexp, indexOne_obj_req hl,
      variants_mkUnion_one, good_variants_self hgt]
    simp
  | true =>
    rw [typeAt_eq]
    unfold typeAtBody
    have hex : isExplicitKey (Ty.obj fs) name = false := by
      rw [isExplicitKey_obj]
      simp [explicitOne, hl]
    have hne : isNestedKey (Ty.obj fs) name = false := by
      unfold isNestedKey
      rw [splitDot_none hnd]
    have har : isArray (Ty.obj fs) name = false := by
      rw [isArray_obj]
      simp [isArrayOne, isArrList, bracketSplit_none hnb]
    have hdk := isDictionaryKey_obj fs name
    have hiT : indexT (Ty.obj fs) name = mkUnion [t, Ty.tUndefined] := by
      rw [indexT_obj, indexOne_obj_opt hl, mkUnion_singleton_mkUnion]
    have hop : isOptionalKey (Ty.obj fs) name = true := by
      unfold isOptionalKey
      rw [splitDot_none hnd]
      show (keyofMem (Ty.obj fs) name
          && (variants (indexT (Ty.obj fs) name)).contains Ty.tUndefined) = true
      rw [keyofMem_obj, hl, hiT, good_undefU_variants hgt]
      simp only [Option.isSome_some, Bool.true_and]
      exact containsIffMem.mpr (by simp)
    rw [hex, hne, har, hdk]
    simp only [isIndexKey, Bool.false_eq_true, if_false]
    rw [if_pos hop, splitDot_none hnd]
    show variants (if (variants (indexT (Ty.obj fs) name)).contains Ty.tUndefined
          = true then excludeUndefined (indexT (Ty.obj fs) name) else Ty.tNever)
        ≠ []
    have hcon : (variants (indexT (Ty.obj fs) name)).contains Ty.tUndefined
        = true := by
      rw [hiT, good_undefU_variants hgt]
      exact containsIffMem.mpr (by simp)
    rw [if_pos hcon, hiT, good_excludeU hgt, good_variants_self hgt]
    simp

theorem chain_nonarr {t : Ty} (hseg : segs t = [[]]) {q : Pat}
    {s : List Char} (hq : q ∈ segs t) (hi : Inst q s) : '.' ∉ s := by
  rw [hseg, List.mem_singleton] at hq
  subst hq
  rw [Inst_nil_inv hi]
  simp

/-- A bracket-chain pattern instantiates to a separator-free string. -/
theorem chain_no_dot : ∀ (t : Ty) {q : Pat} {s : List Char},
    q ∈ segs t → Inst q s → '.' ∉ s
  | .tStr, q, s => @chain_nonarr Ty.tStr rfl q s
  | .tNum, q, s => @chain_nonarr Ty.tNum rfl q s
  | .tBool, q, s => @chain_nonarr Ty.tBool rfl q s
  | .tNull, q, s => @chain_nonarr Ty.tNull rfl q s
  | .tUndefined, q, s => @chain_nonarr Ty.tUndefined rfl q s
  | .tNever, q, s => @chain_nonarr Ty.tNever rfl q s
  | .obj fs, q, s => @chain_nonarr (Ty.obj fs) rfl q s
  | .dict v, q, s => @chain_nonarr (Ty.dict v) rfl q s
  | .union a b, q, s => @chain_nonarr (Ty.union a b) rfl q s
  | .arr e, q, s => by
    intro hq hi
    rw [show segs (Ty.arr e)
        = brP :: (segs e).map (fun x => brP ++ x) from rfl] at hq
    rcases List.mem_cons.mp hq with rfl | hq'
    · have h' : Inst (brP ++ ([] : Pat)) s := by simpa using hi
      obtain ⟨n, s', heq, hi'⟩ := Inst_brP_append h'
      rw [Inst_nil_inv hi'] at heq
      subst heq
      intro hmem
      rcases List.mem_cons.mp hmem with heq | hmem2
      · exact absurd heq (by decide)
      · rcases List.mem_append.mp hmem2 with h3 | h3
        · exact absurd (natChars_digits n '.' h3) (by decide)
        · rcases List.mem_cons.mp h3 with heq | h4
          · exact absurd heq (by decide)
          · simp at h4
    · rw [List.mem_map] at hq'
      obtain ⟨q', hq', rfl⟩ := hq'
      obtain ⟨n, s', heq, hi'⟩ := Inst_brP_append hi
      subst heq
      have hrec := chain_no_dot e hq' hi'
      intro hmem
      rcases List.mem_cons.mp hmem with heq | hmem2
      · exact absurd heq (by decide)
      · rcases List.mem_append.mp hmem2 with h3 | h3
        · exact absurd (natChars_digits n '.' h3) (by decide)
        · rcases List.mem_cons.mp h3 with heq | h4
          · exact absurd heq (by decide)
          · exact hrec h4

theorem chain_resolve_nonarr {t : Ty} (hseg : segs t = [[]]) {q : Pat}
    {s : List Char} (hq : q ∈ segs t) (hi : Inst q s) (hs : s ≠ []) :
    variants (typeAt t s) ≠ [] := by
  exfalso
  refine hs ?_
  rw [hseg, List.mem_singleton] at hq
  subst hq
  exact Inst_nil_inv hi

/-- A nonempty bracket-chain pattern only arises on an array type. -/
theorem segs_nonnil_arr {e : Ty} {q₁ : Pat} {s₁ : List Char}
    (hq : q₁ ∈ segs e) (hi : Inst q₁ s₁) (hs : s₁ ≠ []) :
    ∃ e₂, e = Ty.arr e₂ := by
  cases e
  case arr e₂ => exact ⟨e₂, rfl⟩
  all_goals
  · have hq0 : q₁ = [] := List.mem_singleton.mp hq
    subst hq0
    exact absurd (Inst_nil_inv hi) hs

/-- Resolution of a nonempty instantiated bracket chain at a root array:
rule 4's root branch consumes one `[i]` per array layer and ends at the
normalised element type. -/
theorem chain_resolve : ∀ (t : Ty), goodTy t = true →
    ∀ {q : Pat} {s : List Char}, q ∈ segs t → Inst q s → s ≠ [] →
      variants (typeAt t s) ≠ []
  | .tStr, _, q, s => @chain_resolve_nonarr Ty.tStr rfl q s
  | .tNum, _, q, s => @chain_resolve_nonarr Ty.tNum rfl q s
  | .tBool, _, q, s => @chain_resolve_nonarr Ty.tBool rfl q s
  | .tNull, _, q, s => @chain_resolve_nonarr Ty.tNull rfl q s
  | .tUndefined, _, q, s => @chain_resolve_nonarr Ty.tUndefined rfl q s
  | .tNever, _, q, s => @chain_resolve_nonarr Ty.tNever rfl q s
  | .obj fs, _, q, s => @chain_resolve_nonarr (Ty.obj fs) rfl q s
  | .dict v, _, q, s => @chain_resolve_nonarr (Ty.dict v) rfl q s
  | .union a b, _, q, s => @chain_resolve_nonarr (Ty.union a b) rfl q s
  | .arr e, hg, q, s => by
    intro hq hi hs
    have hge : goodTy e = true := hg
    have hdot : '.' ∉ s := chain_no_dot (Ty.arr e) hq hi
    rw [show segs (Ty.arr e)
        = brP :: (segs e).map (fun x => brP ++ x) from rfl] at hq
    have hsplit : ∃ n s₁, s = '[' :: (natChars n ++ ']' :: s₁) ∧
        (s₁ = [] ∨ ∃ q₁, q₁ ∈ segs e ∧ Inst q₁ s₁) := by
      rcases List.mem_cons.mp hq with rfl | hq'
      · have h' : Inst (brP ++ ([] : Pat)) s := by simpa using hi
        obtain ⟨n, s', heq, hi'⟩ := Inst_brP_append h'
        exact ⟨n, s', heq, Or.inl (Inst_nil_inv hi')⟩
      · rw [List.mem_map] at hq'
        obtain ⟨q', hq', rfl⟩ := hq'
        obtain ⟨n, s', heq, hi'⟩ := Inst_brP_append hi
        exact ⟨n, s', heq, Or.inr ⟨q', hq', hi'⟩⟩
    obtain ⟨n, s₁, rfl, hrest⟩ := hsplit
    have hdot1 : '.' ∉ ('[' :: (natChars n ++ ']' :: s₁)) := hdot
    rw [typeAt_eq]
    unfold typeAtBody
    have hex : isExplicitKey (Ty.arr e) ('[' :: (natChars n ++ ']' :: s₁))
        = false := by
      simp [isExplicitKey, variants, explicitOne]
    have hne : isNestedKey (Ty.arr e) ('[' :: (natChars n ++ ']' :: s₁))
        = false := by
      unfold isNestedKey
      rw [splitDot_none hdot1]
    have har : isArray (Ty.arr e) ('[' :: (natChars n ++ ']' :: s₁))
        = true := by
      simp only [isArray, show variants (Ty.arr e) = [Ty.arr e] from rfl,
        List.any_cons, List.any_nil, Bool.or_false]
      unfold isArrayOne
      rw [if_pos (show isArrList (Ty.arr e) = true from rfl)]
      rw [rootParse_head s₁ natChars_no_rb]
      show isNatStr (natChars n) = true
      exact isNatStr_natChars n
    rw [hex, hne]
    simp only [isIndexKey, Bool.false_eq_true, if_false]
    rw [if_pos har]
    rw [show variants (Ty.arr e) = [Ty.arr e] from rfl]
    simp only [List.map_cons, List.map_nil]
    rw [variants_mkUnion_one]
    apply dedup_ne_nil
    cases s₁ with
    | nil =>
      rw [rootParse_head [] natChars_no_rb]
      show variants (if isNatStr (natChars n) = true then
          normMerge (arrElemTy (Ty.arr e)) else Ty.tNever) ≠ []
      rw [if_pos (isNatStr_natChars n), good_arrElemTy hge,
        good_normMerge_variants hge]
      simp
    | cons c s₂ =>
      rw [rootParse_head (c :: s₂) natChars_no_rb]
      show variants (if isNatStr (natChars n) = true then
          (if c = '.' then typeAt (normMerge (arrElemTy (Ty.arr e))) s₂
            else typeAt (normMerge (arrElemTy (Ty.arr e))) (c :: s₂))
          else Ty.tNever) ≠ []
      rw [if_pos (isNatStr_natChars n)]
      have hc : ¬(c = '.') := by
        intro hcc
        subst hcc
        exact hdot1 (by simp)
      rw [if_neg hc]
      rcases hrest with hnil | ⟨q₁, hq₁, hi₁⟩
      · exact absurd hnil (by simp)
      · obtain ⟨e₂, rfl⟩ := segs_nonnil_arr hq₁ hi₁ (by simp)
        rw [good_arrElemTy hge, normMerge_arr]
        exact chain_resolve (Ty.arr e₂) hge hq₁ hi₁ (by simp)

/-- The core of the amended round trip: on a good object schema, every
instantiation of an enumerated pattern resolves to an inhabited type.
The fuel `k` majorises the field-list size for the nested induction;
descents through required object fields resolve against the
`Normalize`d schema, descents through optional fields against the raw
field type, and array hops against the normalised element type. -/
theorem good_obj_resolve : ∀ (k : Nat) (fs : Flds), fldsSize fs < k →
    goodFlds fs = true → ∀ (d : Nat) {p : Pat} {s : List Char},
      p ∈ pathsO d (Ty.obj fs) → Inst p s →
        variants (typeAt (Ty.obj fs) s) ≠ []
  | 0, fs, hk, _ => absurd hk (by omega)
  | k + 1, fs, hk, hg => by
    intro d p s hp hi
    have hcf : cleanFlds fs = true := good_clean_flds hg
    rw [pathsO_eq] at hp
    unfold pathsBody at hp
    by_cases hd0 : d = 0
    · rw [if_pos hd0] at hp
      exact absurd hp (List.not_mem_nil p)
    rw [if_neg hd0] at hp
    simp only [show variants (Ty.obj fs) = [Ty.obj fs] from rfl,
      List.flatMap_cons, List.flatMap_nil, List.append_nil] at hp
    have hp2 : p ∈ (Flds.toList fs).flatMap
        (fun f => fieldPB pathsO d (litP f.1) f.2.2) := hp
    rw [List.mem_flatMap] at hp2
    obtain ⟨f, hf, hpf⟩ := hp2
    obtain ⟨name, o, ty⟩ := f
    obtain ⟨hnd, hnb, hgt⟩ := goodFlds_mem hg hf
    have hlk : lookupF fs name = some (o, ty) := good_lookup_mem hg hf
    cases ty with
    | tNull => simp [goodTy] at hgt
    | tUndefined => simp [goodTy] at hgt
    | tNever => simp [goodTy] at hgt
    | dict v => simp [goodTy] at hgt
    | union a b => simp [goodTy] at hgt
    | tStr =>
      have hp1 : p = litP name := List.mem_singleton.mp hpf
      subst hp1
      rw [Inst_litP_eq hi]
      exact good_bare_resolve hlk hgt hnd hnb
    | tNum =>
      have hp1 : p = litP name := List.mem_singleton.mp hpf
      subst hp1
      rw [Inst_litP_eq hi]
      exact good_bare_resolve hlk hgt hnd hnb
    | tBool =>
      have hp1 : p = litP name := List.mem_singleton.mp hpf
      subst hp1
      rw [Inst_litP_eq hi]
      exact good_bare_resolve hlk hgt hnd hnb
    | obj fs' =>
      have hgf' : goodFlds fs' = true := hgt
      have hsz : fldsSize fs' < k := by
        have h1 := mem_flds_size hf
        simp only [tySize] at h1
        omega
      rw [fieldPB_obj pathsO d (litP name) fs'] at hpf
      rcases List.mem_append.mp hpf with h1 | h1
      · have hp1 : p = litP name := List.mem_singleton.mp h1
        subst hp1
        rw [Inst_litP_eq hi]
        exact good_bare_resolve hlk hgt hnd hnb
      · rw [List.mem_map] at h1
        obtain ⟨p', hp', rfl⟩ := h1
        obtain ⟨s₀, rfl, hi₀⟩ := Inst_litP_append hi
        obtain ⟨s', rfl, hi'⟩ : ∃ s', s₀ = '.' :: s' ∧ Inst p' s' := by
          cases hi₀ with
          | ch h => exact ⟨_, rfl, h⟩
        rw [typeAt_eq]
        unfold typeAtBody
        have hdotmem : '.' ∈ (name ++ '.' :: s') := by simp
        have hex : isExplicitKey (Ty.obj fs) (name ++ '.' :: s') = false := by
          rw [isExplicitKey_obj]
          simp [explicitOne, clean_lookup_dot hcf hdotmem]
        have hsd : splitDot (name ++ '.' :: s') = some (name, s') :=
          splitDot_head s' hnd
        cases o with
        | false =>
          have hiT : indexT (Ty.obj fs) name = Ty.obj fs' := by
            rw [indexT_obj, indexOne_obj_req hlk]
            exact mkUnion_single_self rfl
          have hcond : (keyofMem (Ty.obj fs) name
              && extendsObject (indexT (Ty.obj fs) name)) = true := by
            rw [keyofMem_obj, hlk, hiT]
            simp [extendsObject, variants, extendsObjectOne]
          have hnek : isNestedKey (Ty.obj fs) (name ++ '.' :: s') = true := by
            unfold isNestedKey
            rw [hsd]
            exact hcond
          rw [hex]
          simp only [isIndexKey, Bool.false_eq_true, if_false]
          rw [if_pos hnek, hsd]
          show variants (if (keyofMem (Ty.obj fs) name
                && extendsObject (indexT (Ty.obj fs) name)) = true then
              typeAt (normMerge (indexT (Ty.obj fs) name)) s'
            else Ty.tNever) ≠ []
          rw [if_pos hcond, hiT, normMerge_obj]
          have hmem' : p' ∈ pathsO (d - 1) (Ty.obj (Flds.normReq fs')) := by
            rw [good_paths_normReq hgf']
            exact hp'
          refine good_obj_resolve k (Flds.normReq fs') ?_
            (good_normReq_good hgf') (d - 1) hmem' hi'
          rw [good_normReq_size hgf']
          exact hsz
        | true =>
          have hiT : indexT (Ty.obj fs) name
              = mkUnion [Ty.obj fs', Ty.tUndefined] := by
            rw [indexT_obj, indexOne_obj_opt hlk, mkUnion_singleton_mkUnion]
          have hnek : isNestedKey (Ty.obj fs) (name ++ '.' :: s')
              = false := by
            unfold isNestedKey
            rw [hsd]
            show (keyofMem (Ty.obj fs) name
                && extendsObject (indexT (Ty.obj fs) name)) = false
            rw [keyofMem_obj, hlk, hiT]
            simp [extendsObject, good_undefU_variants hgt, extendsObjectOne]
          have har : isArray (Ty.obj fs) (name ++ '.' :: s') = false := by
            rw [isArray_obj]
            unfold isArrayOne
            rw [if_neg (show ¬(isArrList (Ty.obj fs) = true) from by
              simp [isArrList])]
            cases hbs : bracketSplit (name ++ '.' :: s') with
            | none => rfl
            | some tr =>
              obtain ⟨base, mid, rest⟩ := tr
              obtain ⟨heq, -, -⟩ := bracketSplit_some hbs
              have heq2 : name ++ '.' :: s' = base ++ '[' :: (mid ++ ']' :: rest) := by
                rw [heq]
                simp
              have hdb : '.' ∈ base := first_mem name base heq2 hnb (by decide)
              show (isNatStr mid && keyofOne (Ty.obj fs) base
                  && allArr (nonNull (indexOne (Ty.obj fs) base))) = false
              rw [show keyofOne (Ty.obj fs) base
                  = (lookupF fs base).isSome from rfl]
              rw [clean_lookup_dot hcf hdb]
              simp
          have hop : isOptionalKey (Ty.obj fs) (name ++ '.' :: s')
              = true := by
            unfold isOptionalKey
            rw [hsd]
            show (keyofMem (Ty.obj fs) name
                && (variants (indexT (Ty.obj fs) name)).contains Ty.tUndefined
                && extendsObject (excludeUndefined (indexT (Ty.obj fs) name)))
              = true
            rw [keyofMem_obj, hlk, hiT, good_undefU_variants hgt,
              good_excludeU hgt]
            simp only [Option.isSome_some, Bool.true_and]
            rw [Bool.and_eq_true]
            exact ⟨containsIffMem.mpr (by simp),
              by simp [extendsObject, variants, extendsObjectOne]⟩
          rw [hex, hnek, har, isDictionaryKey_obj]
          simp only [isIndexKey, Bool.false_eq_true, if_false]
          rw [if_pos hop, hsd]
          show variants
              (if (variants (indexT (Ty.obj fs) name)).contains Ty.tUndefined
                  = true then
                typeAt (excludeUndefined (indexT (Ty.obj fs) name)) s'
              else Ty.tNever) ≠ []
          have hcon : (variants (indexT (Ty.obj fs) name)).contains Ty.tUndefined
              = true := by
            rw [hiT, good_undefU_variants hgt]
            exact containsIffMem.mpr (by simp)
          rw [if_pos hcon, hiT, good_excludeU hgt]
          exact good_obj_resolve k fs' hsz hgf' (d - 1) hp' hi'
    | arr e =>
      have hge : goodTy e = true := hgt
      have hfe : fieldPB pathsO d (litP name) (Ty.arr e)
          = [litP name] ++ (segs (Ty.arr e)).map (fun x => litP name ++ x)
            ++ (elemPB pathsO d (Ty.arr e)).map (fun x => litP name ++ x) :=
        rfl
      rw [hfe] at hpf
      have hnn : nonNull (indexOne (Ty.obj fs) name) = Ty.arr e := by
        cases o with
        | false =>
          rw [indexOne_obj_req hlk]
          exact good_nonNull hgt
        | true =>
          rw [indexOne_obj_opt hlk]
          exact good_nonNullU hgt
      rcases List.mem_append.mp hpf with h12 | hB
      · rcases List.mem_append.mp h12 with h1 | hA
        · have hp1 : p = litP name := List.mem_singleton.mp h1
          subst hp1
          rw [Inst_litP_eq hi]
          exact good_bare_resolve hlk hgt hnd hnb
        · -- a bracket chain on the array field
          rw [List.mem_map] at hA
          obtain ⟨q, hq, rfl⟩ := hA
          obtain ⟨sq, rfl, hiq⟩ := Inst_litP_append hi
          have hdq : '.' ∉ sq := chain_no_dot (Ty.arr e) hq hiq
          rw [show segs (Ty.arr e)
              = brP :: (segs e).map (fun x => brP ++ x) from rfl] at hq
          have hsplit : ∃ n s₁, sq = '[' :: (natChars n ++ ']' :: s₁) ∧
              (s₁ = [] ∨ ∃ q₁, q₁ ∈ segs e ∧ Inst q₁ s₁) := by
            rcases List.mem_cons.mp hq with rfl | hq'
            · have h' : Inst (brP ++ ([] : Pat)) sq := by simpa using hiq
              obtain ⟨n, s', heq, hi'⟩ := Inst_brP_append h'
              exact ⟨n, s', heq, Or.inl (Inst_nil_inv hi')⟩
            · rw [List.mem_map] at hq'
              obtain ⟨q', hq', rfl⟩ := hq'
              obtain ⟨n, s', heq, hi'⟩ := Inst_brP_append hiq
              exact ⟨n, s', heq, Or.inr ⟨q', hq', hi'⟩⟩
          obtain ⟨n, s₁, rfl, hrest⟩ := hsplit
          rw [typeAt_eq]
          unfold typeAtBody
          have hlbmem : '[' ∈ (name ++ '[' :: (natChars n ++ ']' :: s₁)) :=
            by simp
          have hex : isExplicitKey (Ty.obj fs)
              (name ++ '[' :: (natChars n ++ ']' :: s₁)) = false := by
            rw [isExplicitKey_obj]
            simp [explicitOne, clean_lookup_lb hcf hlbmem]
          have hdots : '.' ∉ (name ++ '[' :: (natChars n ++ ']' :: s₁)) := by
            intro hm
            rcases List.mem_append.mp hm with h | h
            · exact hnd h
            · exact hdq h
          have hne : isNestedKey (Ty.obj fs)
              (name ++ '[' :: (natChars n ++ ']' :: s₁)) = false := by
            unfold isNestedKey
            rw [splitDot_none hdots]
          have hbs : bracketSplit (name ++ '[' :: (natChars n ++ ']' :: s₁))
              = some (name, natChars n, s₁) :=
            bracketSplit_head s₁ hnb natChars_no_rb
          have hcond : (isNatStr (natChars n) && keyofOne (Ty.obj fs) name
              && allArr (nonNull (indexOne (Ty.obj fs) name))) = true := by
            rw [isNatStr_natChars n, hnn,
              show keyofOne (Ty.obj fs) name
                = (lookupF fs name).isSome from rfl, hlk]
            simp [allArr, variants, isArrList]
          have har : isArray (Ty.obj fs)
              (name ++ '[' :: (natChars n ++ ']' :: s₁)) = true := by
            rw [isArray_obj]
            unfold isArrayOne
            rw [if_neg (show ¬(isArrList (Ty.obj fs) = true) from by
              simp [isArrList])]
            rw [hbs]
            exact hcond
          rw [hex, hne]
          simp only [isIndexKey, Bool.false_eq_true, if_false]
          rw [if_pos har]
          rw [show variants (Ty.obj fs) = [Ty.obj fs] from rfl]
          simp only [List.map_cons, List.map_nil]
          rw [variants_mkUnion_one]
          apply dedup_ne_nil
          rw [hbs]
          cases s₁ with
          | nil =>
            show variants (if (isNatStr (natChars n)
                  && keyofOne (Ty.obj fs) name
                  && allArr (nonNull (indexOne (Ty.obj fs) name))) = true then
                normMerge (arrElemTy (nonNull (indexOne (Ty.obj fs) name)))
              else Ty.tNever) ≠ []
            rw [if_pos hcond, hnn, good_arrElemTy hge,
              good_normMerge_variants hge]
            simp
          | cons c s₂ =>
            show variants (if (isNatStr (natChars n)
                  && keyofOne (Ty.obj fs) name
                  && allArr (nonNull (indexOne (Ty.obj fs) name))) = true then
                (if c = '.' then
                  typeAt (normMerge (arrElemTy
                    (nonNull (indexOne (Ty.obj fs) name)))) s₂
                else
                  typeAt (normMerge (arrElemTy
                    (nonNull (indexOne (Ty.obj fs) name)))) (c :: s₂))
              else Ty.tNever) ≠ []
            rw [if_pos hcond]
            have hcne : ¬(c = '.') := by
              intro hcc
              subst hcc
              exact hdots (by simp)
            rw [if_neg hcne, hnn, good_arrElemTy hge]
            rcases hrest with hnil | ⟨q₁, hq₁, hi₁⟩
            · exact absurd hnil (by simp)
            · obtain ⟨e₂, rfl⟩ := segs_nonnil_arr hq₁ hi₁ (by simp)
              rw [normMerge_arr]
              exact chain_resolve (Ty.arr e₂) hge hq₁ hi₁ (by simp)
      · -- a dotted path through the array's object element
        rw [List.mem_map] at hB
        obtain ⟨q, hq, rfl⟩ := hB
        have helem : elemPB pathsO d (Ty.arr e)
            = (variants e).flatMap (fun w =>
                if isArrList w then []
                else if extendsObjectOne w && !isTerminalOne w then
                  (pathsO d w).map (fun x => brP ++ PTok.ch '.' :: x)
                else []) := by
          unfold elemPB
          rw [show (variants (Ty.arr e)).filterMap (fun u => match u with
              | Ty.arr e' => some e' | _ => none) = [e] from rfl]
          simp [List.flatMap_cons]
        rw [helem, good_variants_self hge] at hq
        simp only [List.flatMap_cons, List.flatMap_nil, List.append_nil] at hq
        by_cases harr : isArrList e = true
        · rw [if_pos harr] at hq
          exact absurd hq (List.not_mem_nil q)
        rw [if_neg harr] at hq
        by_cases hobj : (extendsObjectOne e && !isTerminalOne e) = true
        case neg =>
          rw [if_neg hobj] at hq
          exact absurd hq (List.not_mem_nil q)
        rw [if_pos hobj] at hq
        obtain ⟨fs_e, rfl⟩ : ∃ fs_e, e = Ty.obj fs_e := by
          cases e with
          | obj fs_e => exact ⟨fs_e, rfl⟩
          | arr e₂ => exact absurd rfl harr
          | dict v => simp [goodTy] at hge
          | union a b => simp [goodTy] at hge
          | tNull => simp [goodTy] at hge
          | tUndefined => simp [goodTy] at hge
          | tNever => simp [goodTy] at hge
          | tStr => simp [extendsObjectOne] at hobj
          | tNum => simp [extendsObjectOne] at hobj
          | tBool => simp [extendsObjectOne] at hobj
        rw [List.mem_map] at hq
        obtain ⟨p', hp', rfl⟩ := hq
        obtain ⟨s₀, rfl, hi₀⟩ := Inst_litP_append hi
        obtain ⟨n, s₁, rfl, hi₁⟩ := Inst_brP_append hi₀
        obtain ⟨s', rfl, hi'⟩ : ∃ s', s₁ = '.' :: s' ∧ Inst p' s' := by
          cases hi₁ with
          | ch h => exact ⟨_, rfl, h⟩
        rw [typeAt_eq]
        unfold typeAtBody
        have hlbmem : '[' ∈ (name ++ '[' :: (natChars n ++ ']' :: '.' :: s'))
          := by simp
        have hex : isExplicitKey (Ty.obj fs)
            (name ++ '[' :: (natChars n ++ ']' :: '.' :: s')) = false := by
          rw [isExplicitKey_obj]
          simp [explicitOne, clean_lookup_lb hcf hlbmem]
        have hsd : splitDot (name ++ '[' :: (natChars n ++ ']' :: '.' :: s'))
            = some (name ++ '[' :: (natChars n ++ [']']), s') := by
          rw [show name ++ '[' :: (natChars n ++ ']' :: '.' :: s')
              = (name ++ '[' :: (natChars n ++ [']'])) ++ '.' :: s' from by
            simp]
          refine splitDot_head s' ?_
          intro hm
          rcases List.mem_append.mp hm with h | h
          · exact hnd h
          · rcases List.mem_cons.mp h with h2 | h2
            · exact absurd h2 (by decide)
            · rcases List.mem_append.mp h2 with h3 | h3
              · exact absurd (natChars_digits n '.' h3) (by decide)
              · rcases List.mem_cons.mp h3 with h4 | h4
                · exact absurd h4 (by decide)
                · simp at h4
        have hne : isNestedKey (Ty.obj fs)
            (name ++ '[' :: (natChars n ++ ']' :: '.' :: s')) = false := by
          unfold isNestedKey
          rw [hsd]
          show (keyofMem (Ty.obj fs) (name ++ '[' :: (natChars n ++ [']']))
              && extendsObject (indexT (Ty.obj fs)
                  (name ++ '[' :: (natChars n ++ [']'])))) = false
          rw [keyofMem_obj]
          have hlkb : lookupF fs (name ++ '[' :: (natChars n ++ [']'])) = none
            := clean_lookup_lb hcf (by simp)
          rw [hlkb]
          rfl
        have hbs : bracketSplit
            (name ++ '[' :: (natChars n ++ ']' :: '.' :: s'))
              = some (name, natChars n, '.' :: s') :=
          bracketSplit_head ('.' :: s') hnb natChars_no_rb
        have hcond : (isNatStr (natChars n) && keyofOne (Ty.obj fs) name
            && allArr (nonNull (indexOne (Ty.obj fs) name))) = true := by
          rw [isNatStr_natChars n, hnn,
            show keyofOne (Ty.obj fs) name
              = (lookupF fs name).isSome from rfl, hlk]
          simp [allArr, variants, isArrList]
        have har : isArray (Ty.obj fs)
            (name ++ '[' :: (natChars n ++ ']' :: '.' :: s')) = true := by
          rw [isArray_obj]
          unfold isArrayOne
          rw [if_neg (show ¬(isArrList (Ty.obj fs) = true) from by
            simp [isArrList])]
          rw [hbs]
          exact hcond
        rw [hex, hne]
        simp only [isIndexKey, Bool.false_eq_true, if_false]
        rw [if_pos har]
        rw [show variants (Ty.obj fs) = [Ty.obj fs] from rfl]
        simp only [List.map_cons, List.map_nil]
        rw [variants_mkUnion_one]
        apply dedup_ne_nil
        rw [hbs]
        show variants (if (isNatStr (natChars n)
              && keyofOne (Ty.obj fs) name
              && allArr (nonNull (indexOne (Ty.obj fs) name))) = true then
            (if ('.' : Char) = '.' then
              typeAt (normMerge (arrElemTy
                (nonNull (indexOne (Ty.obj fs) name)))) s'
            else
              typeAt (normMerge (arrElemTy
                (nonNull (indexOne (Ty.obj fs) name)))) ('.' :: s'))
          else Ty.tNever) ≠ []
        rw [if_pos hcond, if_pos (rfl : ('.' : Char) = '.')]
        rw [hnn, good_arrElemTy hge, normMerge_obj]
        have hgfe : goodFlds fs_e = true := hge
        have hsz : fldsSize fs_e < k := by
          have h1 := mem_flds_size hf
          simp only [tySize] at h1
          omega
        have hmem' : p' ∈ pathsO d (Ty.obj (Flds.normReq fs_e)) := by
          rw [good_paths_normReq hgfe]
          exact hp'
        refine good_obj_resolve k (Flds.normReq fs_e) ?_
          (good_normReq_good hgfe) d hmem' hi'
        rw [good_normReq_size hgfe]
        exact hsz

/-- C1 (amended): the round trip holds on the well-behaved schema class
`goodFlds` — object schemas (at any nesting, with arrays and primitive
leaves) whose field names are nonempty, duplicate-free and free of `.`
and `[`, and which contain no dictionaries, no unions and no
`null`/`undefined`/`never` member types.  For every pattern `p` in
`enumeratePaths` (`pathsOf`) and every instantiation of its
`` `${number}` `` holes by arbitrary natural numbers (`Inst`), the
resolver does not return Unresolvable.  (The unamended claim, over all
schemas, is refuted by `c1_round_trip_counterexample`; root arrays,
unions and `null`/`undefined` members each break it too, and dictionary
patterns fall outside the claim's integer substitution: their
`` `${string}` `` wildcard takes no integer literal.) -/
theorem c1_round_trip_amended (fs : Flds) (h : goodFlds fs = true)
    (p : Pat) (s : List Char) (hp : p ∈ pathsOf (Ty.obj fs))
    (hi : Inst p s) : typeAt (Ty.obj fs) s ≠ Ty.tNever := by
  intro hnev
  have hv := good_obj_resolve (fldsSize fs + 1) fs (by omega) h MaxDepth hp hi
  rw [hnev] at hv
  exact hv rfl

/-- Witness for `c1_round_trip_amended`: the wildcard pattern
`` items[${number}].id `` instantiated at index `12`. -/
theorem c1_round_trip_witness :
    goodFlds c1schema = true ∧ c1pat ∈ pathsOf (Ty.obj c1schema) ∧
      Inst c1pat "items[12].id".data ∧
      typeAt (Ty.obj c1schema) "items[12].id".data ≠ Ty.tNever := by
  refine ⟨by decide, by decide, ?_, ?_⟩
  · exact show Inst c1pat ("items".data ++ '[' ::
        (natChars 12 ++ ']' :: '.' :: "id".data)) from
      Inst_litP_intro "items".data (Inst.ch (Inst.nat 12
        (Inst.ch (Inst.ch (Inst_litP_self "id".data)))))
  · exact c1_round_trip_amended c1schema (by decide) c1pat
      "items[12].id".data (by decide)
      (show Inst c1pat ("items".data ++ '[' ::
          (natChars 12 ++ ']' :: '.' :: "id".data)) from
        Inst_litP_intro "items".data (Inst.ch (Inst.nat 12
          (Inst.ch (Inst.ch (Inst_litP_self "id".data))))))

end Typologist
